import Mathlib

/-!
A verification model of the state-sync core in `chain/client/src/sync/state.rs`
(module `near_client::sync::state`).  Rust structures are embedded as Lean
structures, machine integers as `Nat`/`Int`, timestamps (`DateTime<Utc>`) and
durations as `Int`, and side effects (network sends, storage writes) as explicit
effect lists.  Hash maps are embedded as association lists, and the `lru` cache
as an ordered association list with a capacity.  Randomness (`thread_rng`) is
embedded as an oracle `Nat → Nat` whose draws are reduced modulo the live range,
matching `gen_range`/`choose`.
-/

namespace StateSyncModel

/-- Peer identifiers (`PeerId`), abstracted to numbers. -/
abbrev PeerId := Nat

/-- Shard identifiers (`ShardId = u64`). -/
abbrev ShardId := Nat

/-- Block hashes (`CryptoHash`), abstracted to numbers. -/
abbrev CryptoHash := Nat

/-- Timestamps; `DateTime<Utc>` and `chrono::Duration` are both embedded as `Int`. -/
abbrev Timestamp := Int

/-- `MAX_STATE_PART_REQUEST: u64 = 16` from the source. -/
def MAX_STATE_PART_REQUEST : Nat := 16

/-- `MAX_PENDING_PART = MAX_STATE_PART_REQUEST * 10000` from the source. -/
def MAX_PENDING_PART : Nat := MAX_STATE_PART_REQUEST * 10000

/-! ### List surgery helpers

`Vec::swap_remove`-style removal: the element at `ix` is overwritten with the
last element and the last slot is popped.  This is exactly what
`SamplerLimited::next` does with `self.limit[ix] = self.limit[len - 1];
self.data.swap(ix, len - 1); self.limit.pop(); self.data.pop()` (the branch
`ix + 1 == len` of the source simply pops, which coincides with the formula
below because setting the last position to itself is the identity). -/

/-- Swap-remove at index `ix`: overwrite position `ix` with the last element,
then drop the last element. -/
def swapRemove (l : List α) (ix : Nat) : List α :=
  match l.getLast? with
  | none => l
  | some a => (l.set ix a).dropLast

theorem length_swapRemove (l : List α) (ix : Nat) (h : l ≠ []) :
    (swapRemove l ix).length = l.length - 1 := by
  unfold swapRemove
  match hl : l.getLast? with
  | none => cases l with
    | nil => simp at h
    | cons b t => simp [List.getLast?] at hl
  | some a => simp [List.length_dropLast, List.length_set]

theorem swapRemove_eq {l : List α} {a : α} (ix : Nat) (hl : l.getLast? = some a) :
    swapRemove l ix = (l.set ix a).dropLast := by
  unfold swapRemove
  rw [hl]

theorem getLast?_cons_ne (b : α) (X : List α) (h : X ≠ []) :
    (b :: X).getLast? = X.getLast? := by
  cases X with
  | nil => exact absurd rfl h
  | cons c u => exact List.getLast?_cons_cons ..

theorem getLast?_set_of_lt (l : List α) (ix : Nat) (a : α) (h : ix + 1 < l.length) :
    (l.set ix a).getLast? = l.getLast? := by
  induction l generalizing ix with
  | nil => simp at h
  | cons b t ih =>
    cases ix with
    | zero =>
      have ht : t ≠ [] := by
        intro he; rw [he] at h; simp at he h
      rw [List.set_cons_zero, getLast?_cons_ne a t ht, getLast?_cons_ne b t ht]
    | succ n =>
      have ht : t ≠ [] := by
        intro he; rw [he] at h; simp at h
      have hset : t.set n a ≠ [] := by
        intro he
        have := congrArg List.length he
        simp at this
        rw [this] at ht; exact ht rfl
      have hn : n + 1 < t.length := by simpa using Nat.lt_of_succ_lt_succ h
      rw [List.set_cons_succ, getLast?_cons_ne b _ hset, getLast?_cons_ne b t ht]
      exact ih n hn

theorem getLast?_set_of_eq (l : List α) (ix : Nat) (a : α) (h : ix + 1 = l.length) :
    (l.set ix a).getLast? = some a := by
  induction l generalizing ix with
  | nil => simp at h
  | cons b t ih =>
    cases ix with
    | zero =>
      cases t with
      | nil => simp
      | cons c u => simp at h
    | succ n =>
      cases t with
      | nil => simp at h
      | cons c u =>
        have hn : n + 1 = (c :: u).length := by
          simpa using Nat.succ_injective h
        have hset : (c :: u).set n a ≠ [] := by
          intro he
          have := congrArg List.length he
          simp at this
        rw [List.set_cons_succ, getLast?_cons_ne b _ hset]
        exact ih n hn

theorem dropLast_set_of_eq (l : List α) (ix : Nat) (a : α) (h : ix + 1 = l.length) :
    (l.set ix a).dropLast = l.dropLast := by
  induction l generalizing ix with
  | nil => simp at h
  | cons b t ih =>
    cases ix with
    | zero =>
      cases t with
      | nil => simp
      | cons c u => simp at h
    | succ n =>
      cases t with
      | nil => simp at h
      | cons c u =>
        have hn : n + 1 = (c :: u).length := by
          simpa using Nat.succ_injective h
        have hset : (c :: u).set n a ≠ [] := by
          intro he
          have := congrArg List.length he
          simp at this
        rw [List.set_cons_succ,
          List.dropLast_cons_of_ne_nil hset,
          List.dropLast_cons_of_ne_nil (by simp : (c : α) :: u ≠ []),
          ih n hn]

theorem mem_dropLast {l : List α} {a : α} (h : a ∈ l.dropLast) : a ∈ l :=
  (List.dropLast_sublist l).mem h

theorem mem_of_getLast?_eq {l : List α} {a : α} (h : l.getLast? = some a) : a ∈ l := by
  have hne : l ≠ [] := by
    intro he; rw [he] at h; simp at h
  rw [List.getLast?_eq_getLast_of_ne_nil hne, Option.some_inj] at h
  exact h ▸ List.getLast_mem hne

theorem mem_swapRemove {l : List α} {ix : Nat} {a : α} (h : a ∈ swapRemove l ix) :
    a ∈ l := by
  unfold swapRemove at h
  match hl : l.getLast? with
  | none => rw [hl] at h; exact h
  | some b =>
    rw [hl] at h
    rcases List.mem_or_eq_of_mem_set (mem_dropLast h) with h' | h'
    · exact h'
    · exact h' ▸ mem_of_getLast?_eq hl

/-- Sum of a list after a `set` at a valid index, phrased additively. -/
theorem sum_set_add (l : List Nat) (ix : Nat) (a : Nat) (h : ix < l.length) :
    (l.set ix a).sum + l.getD ix 0 = l.sum + a := by
  induction l generalizing ix with
  | nil => simp at h
  | cons b t ih =>
    cases ix with
    | zero => simp [List.sum_cons, Nat.add_comm, Nat.add_left_comm]
    | succ n =>
      have hn : n < t.length := by simpa using Nat.lt_of_succ_lt_succ h
      have := ih n hn
      simp only [List.set_cons_succ, List.sum_cons, List.getD_cons_succ]
      omega

/-- A list's sum decomposes as the sum of `dropLast` plus its last element. -/
theorem sum_dropLast_add (l : List Nat) :
    l.dropLast.sum + l.getLast?.getD 0 = l.sum := by
  induction l with
  | nil => simp
  | cons b t ih =>
    cases t with
    | nil => simp
    | cons c u =>
      simp only [List.dropLast_cons_of_ne_nil (by simp : c :: u ≠ []),
        List.sum_cons, List.getLast?_cons_cons]
      have := ih
      simp only [List.sum_cons] at this
      omega

/-- Swap-removing a valid index removes exactly that element from the sum. -/
theorem sum_swapRemove_add (l : List Nat) (ix : Nat) (h : ix < l.length) :
    (swapRemove l ix).sum + l.getD ix 0 = l.sum := by
  have hne : l ≠ [] := by
    intro he; rw [he] at h; simp at h
  obtain ⟨a, hl⟩ : ∃ a, l.getLast? = some a := by
    cases hg : l.getLast? with
    | none => exact absurd (List.getLast?_eq_none_iff.mp hg) hne
    | some a => exact ⟨a, rfl⟩
  rw [swapRemove_eq ix hl]
  rcases Nat.lt_or_ge (ix + 1) l.length with hlt | hge
  · have h1 : (l.set ix a).getLast? = some a := by
      rw [getLast?_set_of_lt l ix a hlt, hl]
    have h2 := sum_dropLast_add (l.set ix a)
    rw [h1] at h2
    have h3 := sum_set_add l ix a h
    simp only [Option.getD_some] at h2
    omega
  · have heq : ix + 1 = l.length := Nat.le_antisymm h hge
    rw [dropLast_set_of_eq l ix a heq]
    have h2 := sum_dropLast_add l
    rw [hl] at h2
    have h4 : l.getD ix 0 = a := by
      have hg : l.getLast? = l[ix]? := by
        rw [List.getLast?_eq_getElem?]
        congr 1
        omega
      rw [hg] at hl
      simp [List.getD_eq_getElem?_getD, hl]
    simp only [Option.getD_some] at h2
    omega

/-! ### The bounded-multiplicity sampler (`SamplerLimited`, source lines 1268-1308)

The source keeps two parallel vectors `data` and `limit`; `next` draws a
uniform index into the live range, decrements `limit[ix]`, and swap-removes the
slot when its budget reaches zero, yielding `data[ix]`.  The random draw is an
explicit argument here (`gen_range(0..len)` becomes `r % len`). -/

/-- The sampler state: parallel `data` and `limit` vectors. -/
structure SamplerLimited (T : Type) where
  data : List T
  limit : List Nat

/-- `SamplerLimited::new(data, limit)`: each element may be yielded `limit` times;
a zero limit produces the empty sampler. -/
def SamplerLimited.new (data : List T) (limit : Nat) : SamplerLimited T :=
  if limit = 0 then ⟨[], []⟩ else ⟨data, List.replicate data.length limit⟩

/-- `SamplerLimited::next` with the random draw `r` made explicit. -/
def SamplerLimited.next (s : SamplerLimited T) (r : Nat) : Option (T × SamplerLimited T) :=
  if s.limit.isEmpty then none
  else
    let len := s.limit.length
    let ix := r % len
    let dec := s.limit.getD ix 0 - 1
    let limit1 := s.limit.set ix dec
    match s.data.get? ix with
    | none => none
    | some x =>
      if dec = 0 then some (x, ⟨swapRemove s.data ix, swapRemove limit1 ix⟩)
      else some (x, ⟨s.data, limit1⟩)

theorem sampler_next_measure {T : Type} (s s' : SamplerLimited T) (r : Nat) (x : T)
    (h : s.next r = some (x, s')) :
    s'.limit.sum + s'.limit.length < s.limit.sum + s.limit.length := by
  unfold SamplerLimited.next at h
  by_cases he : s.limit.isEmpty
  · simp [he] at h
  · simp only [he, Bool.false_eq_true, if_false] at h
    have hlen : 0 < s.limit.length := by
      cases hl : s.limit with
      | nil => rw [hl] at he; simp at he
      | cons a t => simp [hl]
    set ix := r % s.limit.length with hix
    have hixlt : ix < s.limit.length := Nat.mod_lt _ hlen
    cases hd : s.data.get? ix with
    | none => rw [hd] at h; simp at h
    | some y =>
      rw [hd] at h
      simp only at h
      by_cases hdec : s.limit.getD ix 0 - 1 = 0
      · rw [if_pos hdec] at h
        obtain ⟨-, hs⟩ := Prod.mk.injEq .. ▸ Option.some.injEq .. ▸ h
        have hset : (s.limit.set ix (s.limit.getD ix 0 - 1)).length = s.limit.length := by
          simp
        have hne : s.limit.set ix (s.limit.getD ix 0 - 1) ≠ [] := by
          intro hc
          rw [hc] at hset
          simp at hset
          omega
        have hlen2 := length_swapRemove (s.limit.set ix (s.limit.getD ix 0 - 1)) ix hne
        have hsum2 := sum_swapRemove_add (s.limit.set ix (s.limit.getD ix 0 - 1)) ix
          (by rw [hset]; exact hixlt)
        have hsum3 := sum_set_add s.limit ix (s.limit.getD ix 0 - 1) hixlt
        have hgd : (s.limit.set ix (s.limit.getD ix 0 - 1)).getD ix 0 = 0 := by
          rw [List.getD_eq_getElem?_getD, List.getElem?_set_eq_of_lt _ hixlt]
          simpa using hdec
        rw [← hs]
        rw [hgd] at hsum2
        rw [hset] at hlen2
        dsimp only
        omega
      · rw [if_neg hdec] at h
        obtain ⟨-, hs⟩ := Prod.mk.injEq .. ▸ Option.some.injEq .. ▸ h
        have hsum := sum_set_add s.limit ix (s.limit.getD ix 0 - 1) hixlt
        have hpos : 1 ≤ s.limit.getD ix 0 := by omega
        rw [← hs]
        dsimp only
        simp only [List.length_set]
        omega

/-- Running the sampler to exhaustion against a draw oracle, collecting every
yield in order.  `k` is the position in the oracle stream. -/
def SamplerLimited.run (s : SamplerLimited T) (oracle : Nat → Nat) (k : Nat) : List T :=
  match h : s.next (oracle k) with
  | none => []
  | some (x, s') => x :: s'.run oracle (k + 1)
termination_by s.limit.sum + s.limit.length
decreasing_by exact sampler_next_measure _ _ _ _ h

/-! ### Counting what the sampler yields

`wsum f` is the weighted total of a zipped `(data, limit)` pair list:
`Σ f(dataᵢ) * limitᵢ`.  Specialising `f` to a constant gives the number of
remaining yields, specialising to an indicator gives the remaining yields of
one value. -/

/-- Weighted sum of a pair list. -/
def wsum (f : T → Nat) : List (T × Nat) → Nat
  | [] => 0
  | q :: ps => f q.1 * q.2 + wsum f ps

theorem set_self_of_get? {l : List α} {ix : Nat} {x : α} (h : l.get? ix = some x) :
    l.set ix x = l := by
  induction l generalizing ix with
  | nil => simp at h
  | cons a t ih =>
    cases ix with
    | zero => simp at h; simp [h]
    | succ n => simp only [List.get?_cons_succ] at h; simp [ih h]

theorem zip_set (d : List α) (l : List β) (ix : Nat) (x : α) (n : β) :
    (d.set ix x).zip (l.set ix n) = (d.zip l).set ix (x, n) := by
  induction d generalizing l ix with
  | nil => simp
  | cons a t ih =>
    cases l with
    | nil => simp
    | cons b u =>
      cases ix with
      | zero => simp [List.zip_cons_cons]
      | succ m => simp [List.zip_cons_cons, ih]

theorem zip_dropLast (d : List α) (l : List β) (h : d.length = l.length) :
    d.dropLast.zip l.dropLast = (d.zip l).dropLast := by
  induction d generalizing l with
  | nil => simp
  | cons a t ih =>
    cases l with
    | nil => simp at h
    | cons b u =>
      cases t with
      | nil =>
        cases u with
        | nil => simp
        | cons c v => simp at h
      | cons c v =>
        cases u with
        | nil => simp at h
        | cons e w =>
          have hlen : (c :: v).length = (e :: w).length := by simpa using h
          have h1 : (c : α) :: v ≠ [] := by simp
          have h2 : (e : β) :: w ≠ [] := by simp
          have h3 : ((c :: v).zip (e :: w)) ≠ [] := by simp [List.zip_cons_cons]
          rw [List.dropLast_cons_of_ne_nil h1, List.dropLast_cons_of_ne_nil h2,
            List.zip_cons_cons, List.zip_cons_cons, ih _ hlen,
            List.dropLast_cons_of_ne_nil h3]

theorem zip_getLast? (d : List α) (l : List β) (h : d.length = l.length)
    {x : α} {n : β} (hd : d.getLast? = some x) (hl : l.getLast? = some n) :
    (d.zip l).getLast? = some (x, n) := by
  induction d generalizing l with
  | nil => simp at hd
  | cons a t ih =>
    cases l with
    | nil => simp at hl
    | cons b u =>
      cases t with
      | nil =>
        cases u with
        | nil =>
          simp at hd hl
          simp [List.zip_cons_cons, hd, hl]
        | cons c v => simp at h
      | cons c v =>
        cases u with
        | nil => simp at h
        | cons e w =>
          have hlen : (c :: v).length = (e :: w).length := by simpa using h
          rw [List.getLast?_cons_cons] at hd
          rw [List.getLast?_cons_cons] at hl
          have h3 : ((c :: v).zip (e :: w)) ≠ [] := by simp [List.zip_cons_cons]
          rw [List.zip_cons_cons, getLast?_cons_ne _ _ h3]
          exact ih _ hlen hd hl

theorem zip_swapRemove (d : List α) (l : List β) (ix : Nat) (h : d.length = l.length) :
    (swapRemove d ix).zip (swapRemove l ix) = swapRemove (d.zip l) ix := by
  cases hd : d.getLast? with
  | none =>
    have hdnil : d = [] := List.getLast?_eq_none_iff.mp hd
    subst hdnil
    have hlnil : l = [] := by
      cases l with
      | nil => rfl
      | cons b u => simp at h
    subst hlnil
    simp [swapRemove]
  | some x =>
    have hdne : d ≠ [] := by
      intro he; rw [he] at hd; simp at hd
    have hlne : l ≠ [] := by
      intro he
      rw [he] at h
      exact hdne (List.length_eq_zero.mp h)
    obtain ⟨n, hl⟩ : ∃ n, l.getLast? = some n := by
      cases hg : l.getLast? with
      | none => exact absurd (List.getLast?_eq_none_iff.mp hg) hlne
      | some n => exact ⟨n, rfl⟩
    have hzl : (d.zip l).getLast? = some (x, n) := zip_getLast? d l h hd hl
    rw [swapRemove_eq ix hd, swapRemove_eq ix hl, swapRemove_eq ix hzl,
      ← zip_set, zip_dropLast _ _ (by simp [h])]

theorem wsum_set_add (f : T → Nat) (ps : List (T × Nat)) (ix : Nat)
    (q q₀ : T × Nat) (h : ps.get? ix = some q₀) :
    wsum f (ps.set ix q) + f q₀.1 * q₀.2 = wsum f ps + f q.1 * q.2 := by
  induction ps generalizing ix with
  | nil => simp at h
  | cons p t ih =>
    cases ix with
    | zero =>
      simp only [List.get?_cons_zero, Option.some_inj] at h
      subst h
      simp [wsum]
      omega
    | succ n =>
      simp only [List.get?_cons_succ] at h
      have := ih n h
      simp only [List.set_cons_succ, wsum]
      omega

theorem wsum_dropLast_add (f : T → Nat) (ps : List (T × Nat)) {q : T × Nat}
    (h : ps.getLast? = some q) :
    wsum f ps.dropLast + f q.1 * q.2 = wsum f ps := by
  induction ps with
  | nil => simp at h
  | cons p t ih =>
    cases t with
    | nil =>
      simp at h
      subst h
      simp [wsum]
    | cons c v =>
      rw [List.getLast?_cons_cons] at h
      rw [List.dropLast_cons_of_ne_nil (by simp : (c : T × Nat) :: v ≠ [])]
      have := ih h
      simp only [wsum] at this ⊢
      omega

theorem wsum_swapRemove_add (f : T → Nat) (ps : List (T × Nat)) (ix : Nat)
    {q₀ : T × Nat} (h : ps.get? ix = some q₀) :
    wsum f (swapRemove ps ix) + f q₀.1 * q₀.2 = wsum f ps := by
  have hix : ix < ps.length := List.get?_eq_some.mp h |>.1
  have hne : ps ≠ [] := by
    intro he; rw [he] at hix; simp at hix
  obtain ⟨q, hl⟩ : ∃ q, ps.getLast? = some q := by
    cases hg : ps.getLast? with
    | none => exact absurd (List.getLast?_eq_none_iff.mp hg) hne
    | some q => exact ⟨q, rfl⟩
  rw [swapRemove_eq ix hl]
  rcases Nat.lt_or_ge (ix + 1) ps.length with hlt | hge
  · have h1 : (ps.set ix q).getLast? = some q := by
      rw [getLast?_set_of_lt ps ix q hlt, hl]
    have h2 := wsum_dropLast_add f (ps.set ix q) h1
    have h3 := wsum_set_add f ps ix q q₀ h
    omega
  · have heq : ix + 1 = ps.length := Nat.le_antisymm hix hge
    rw [dropLast_set_of_eq ps ix q heq]
    have h2 := wsum_dropLast_add f ps hl
    have h4 : q₀ = q := by
      have hg : ps.getLast? = ps.get? ix := by
        rw [List.getLast?_eq_getElem?, ← List.get?_eq_getElem?]
        congr 1
        omega
      rw [hg, h] at hl
      exact Option.some_inj.mp hl
    subst h4
    omega

/-- The invariant maintained by the sampler: parallel vectors of equal length
and every remaining budget entry is positive. -/
def SamplerGood (s : SamplerLimited T) : Prop :=
  s.data.length = s.limit.length ∧ ∀ m ∈ s.limit, 1 ≤ m

theorem sampler_next_none {T : Type} (s : SamplerLimited T) (r : Nat)
    (hg : SamplerGood s) (h : s.next r = none) : s.limit = [] := by
  unfold SamplerLimited.next at h
  by_cases he : s.limit.isEmpty
  · exact List.isEmpty_iff.mp he
  · exfalso
    simp only [he, Bool.false_eq_true, if_false] at h
    have hlen : 0 < s.limit.length := by
      cases hl : s.limit with
      | nil => rw [hl] at he; simp at he
      | cons a t => simp [hl]
    have hixlt : r % s.limit.length < s.limit.length := Nat.mod_lt _ hlen
    have hdlt : r % s.limit.length < s.data.length := by rw [hg.1]; exact hixlt
    cases hd : s.data.get? (r % s.limit.length) with
    | none =>
      have hcon : s.data.length ≤ r % s.limit.length := by
        simpa [List.get?_eq_getElem?, List.getElem?_eq_none_iff] using hd
      omega
    | some y =>
      rw [hd] at h
      simp only at h
      by_cases hdec : s.limit[r % s.limit.length]?.getD 0 - 1 = 0 <;>
        simp [hdec] at h

/-- One sampler step under the invariant: the invariant is preserved and the
weighted sum drops by exactly `f x` where `x` is the yielded element. -/
theorem sampler_next_step {T : Type} (f : T → Nat) (s s' : SamplerLimited T)
    (r : Nat) (x : T) (hg : SamplerGood s) (h : s.next r = some (x, s')) :
    SamplerGood s' ∧
      wsum f (s'.data.zip s'.limit) + f x = wsum f (s.data.zip s.limit) := by
  unfold SamplerLimited.next at h
  by_cases he : s.limit.isEmpty
  · simp [he] at h
  · simp only [he, Bool.false_eq_true, if_false] at h
    have hlen : 0 < s.limit.length := by
      cases hl : s.limit with
      | nil => rw [hl] at he; simp at he
      | cons a t => simp [hl]
    set ix := r % s.limit.length with hixdef
    have hixlt : ix < s.limit.length := Nat.mod_lt _ hlen
    have hdlen : ix < s.data.length := by rw [hg.1]; exact hixlt
    cases hd : s.data.get? ix with
    | none =>
      have hcon : s.data.length ≤ ix := by
        simpa [List.get?_eq_getElem?, List.getElem?_eq_none_iff] using hd
      omega
    | some y =>
      rw [hd] at h
      simp only at h
      obtain ⟨e, hev⟩ : ∃ e, s.limit.get? ix = some e :=
        ⟨_, List.get?_eq_get hixlt⟩
      have hgd : s.limit.getD ix 0 = e := by
        rw [List.getD_eq_getElem?_getD, ← List.get?_eq_getElem?, hev]
        rfl
      have hepos : 1 ≤ e := hg.2 e (List.get?_mem hev)
      have hq : (s.data.zip s.limit).get? ix = some (y, e) := by
        rw [List.get?_zip_eq_some]
        exact ⟨hd, hev⟩
      by_cases hdec : s.limit.getD ix 0 - 1 = 0
      · rw [if_pos hdec] at h
        obtain ⟨hyx, hs⟩ := Prod.mk.injEq .. ▸ Option.some.injEq .. ▸ h
        have he1 : e = 1 := by omega
        subst he1
        have hset0 : s.limit.set ix (s.limit.getD ix 0 - 1) = s.limit.set ix 0 := by
          rw [hgd]
        rw [hset0] at hs
        constructor
        · -- invariant after a swap-removal
          rw [← hs]
          refine ⟨?_, ?_⟩
          · dsimp only
            have hdne : s.data ≠ [] := by
              intro hnil; rw [hnil] at hdlen; simp at hdlen
            have hlne : s.limit.set ix 0 ≠ [] := by
              intro hnil
              have hl0 := (List.set_eq_nil_iff _ _).mp hnil
              rw [hl0] at hlen
              simp at hlen
            rw [length_swapRemove _ _ hdne, length_swapRemove _ _ hlne]
            simp [hg.1]
          · dsimp only
            intro m hm
            -- every member of the swap-removed budget list is positive:
            -- the zero written at `ix` is either overwritten by the last
            -- element or dropped with the last slot
            have hmem := mem_swapRemove hm
            rcases Nat.lt_or_ge (ix + 1) s.limit.length with hlt | hge
            · obtain ⟨a, hla⟩ : ∃ a, s.limit.getLast? = some a := by
                cases hgl : s.limit.getLast? with
                | none =>
                  have := List.getLast?_eq_none_iff.mp hgl
                  rw [this] at hlen; simp at hlen
                | some a => exact ⟨a, rfl⟩
              have hset : (s.limit.set ix 0).getLast? = some a := by
                rw [getLast?_set_of_lt _ _ _ (by simpa using hlt), hla]
              rw [swapRemove_eq ix hset, List.set_set] at hm
              rcases List.mem_or_eq_of_mem_set (mem_dropLast hm) with h' | h'
              · exact hg.2 m h'
              · exact h' ▸ hg.2 a (mem_of_getLast?_eq hla)
            · have heq : ix + 1 = s.limit.length := Nat.le_antisymm hixlt hge
              obtain ⟨a, hla⟩ : ∃ a, (s.limit.set ix 0).getLast? = some a := by
                cases hgl : (s.limit.set ix 0).getLast? with
                | none =>
                  have hl0 := (List.set_eq_nil_iff _ _).mp (List.getLast?_eq_none_iff.mp hgl)
                  rw [hl0] at hlen
                  simp at hlen
                | some a => exact ⟨a, rfl⟩
              rw [swapRemove_eq ix hla,
                dropLast_set_of_eq _ _ _ (by simpa using heq),
                dropLast_set_of_eq _ _ _ (by simpa using heq)] at hm
              exact hg.2 m (mem_dropLast hm)
        · rw [← hs]
          dsimp only
          rw [zip_swapRemove _ _ _ (by simp [hg.1]), ← hyx]
          have hzip : s.data.zip (s.limit.set ix 0)
              = (s.data.zip s.limit).set ix (y, 0) := by
            conv_lhs => rw [← set_self_of_get? hd]
            exact zip_set ..
          rw [hzip]
          have hzlt : ix < (s.data.zip s.limit).length := by
            rw [List.length_zip]
            omega
          have hqset : ((s.data.zip s.limit).set ix (y, 0)).get? ix = some (y, 0) := by
            rw [List.get?_eq_getElem?]
            exact List.getElem?_set_eq_of_lt _ hzlt
          have hsr := wsum_swapRemove_add f ((s.data.zip s.limit).set ix (y, 0)) ix hqset
          have hset := wsum_set_add f (s.data.zip s.limit) ix (y, 0) (y, 1) hq
          simp only at hsr hset
          omega
      · rw [if_neg hdec] at h
        obtain ⟨hyx, hs⟩ := Prod.mk.injEq .. ▸ Option.some.injEq .. ▸ h
        constructor
        · rw [← hs]
          refine ⟨by dsimp only; simp [hg.1], ?_⟩
          dsimp only
          intro m hm
          rcases List.mem_or_eq_of_mem_set hm with h' | h'
          · exact hg.2 m h'
          · omega
        · rw [← hs]
          dsimp only
          have hzip : s.data.zip (s.limit.set ix (s.limit.getD ix 0 - 1))
              = (s.data.zip s.limit).set ix (y, e - 1) := by
            conv_lhs => rw [← set_self_of_get? hd]
            rw [hgd]
            exact zip_set ..
          rw [hzip, ← hyx]
          have hset := wsum_set_add f (s.data.zip s.limit) ix (y, e - 1) (y, e) hq
          simp only at hset
          have : f y * (e - 1) + f y = f y * e := by
            have : e - 1 + 1 = e := by omega
            calc f y * (e - 1) + f y = f y * (e - 1 + 1) := by ring
              _ = f y * e := by rw [this]
          omega

/-- Running a good sampler yields a list whose `f`-weight is exactly the
weighted sum of its `(data, limit)` state. -/
theorem run_map_sum {T : Type} (f : T → Nat) :
    ∀ (n : Nat) (s : SamplerLimited T), s.limit.sum + s.limit.length ≤ n →
      SamplerGood s → ∀ (o : Nat → Nat) (k : Nat),
      ((s.run o k).map f).sum = wsum f (s.data.zip s.limit) := by
  intro n
  induction n with
  | zero =>
    intro s hle hg o k
    have hnil : s.limit = [] := by
      cases hl : s.limit with
      | nil => rfl
      | cons a t => rw [hl] at hle; simp at hle
    have hdnil : s.data = [] := by
      have := hg.1
      rw [hnil] at this
      exact List.length_eq_zero.mp this
    rw [SamplerLimited.run]
    split
    · simp [hdnil, hnil, wsum]
    · next x s' heq =>
        exfalso
        have hnone : s.next (o k) = none := by
          unfold SamplerLimited.next
          simp [hnil]
        rw [hnone] at heq
        exact Option.noConfusion heq
  | succ m ih =>
    intro s hle hg o k
    rw [SamplerLimited.run]
    split
    · next heq =>
        have hnil := sampler_next_none s (o k) hg heq
        have hdnil : s.data = [] := by
          have := hg.1
          rw [hnil] at this
          exact List.length_eq_zero.mp this
        simp [hdnil, wsum]
    · next x s' heq =>
        obtain ⟨hg', hstep⟩ := sampler_next_step f s s' (o k) x hg heq
        have hlt := sampler_next_measure s s' (o k) x heq
        have hrec := ih s' (by omega) hg' o (k + 1)
        simp only [List.map_cons, List.sum_cons]
        rw [hrec]
        omega

theorem map_one_sum (l : List T) : (l.map (fun _ => 1)).sum = l.length := by
  induction l with
  | nil => simp
  | cons a t ih => simp [ih, Nat.add_comm]

theorem map_ind_sum [DecidableEq T] (v : T) (l : List T) :
    (l.map (fun y => if y = v then 1 else 0)).sum = l.count v := by
  induction l with
  | nil => simp
  | cons a t ih =>
    by_cases h : a = v
    · simp [h, List.count_cons, ih, Nat.add_comm]
    · simp [h, List.count_cons, ih]

theorem wsum_zip_replicate (f : T → Nat) (d : List T) (K : Nat) :
    wsum f (d.zip (List.replicate d.length K)) = K * (d.map f).sum := by
  induction d with
  | nil => simp [wsum]
  | cons a t ih =>
    simp only [List.length_cons, List.replicate_succ, List.zip_cons_cons,
      List.map_cons, List.sum_cons, wsum]
    rw [show List.zipWith Prod.mk t (List.replicate t.length K)
      = t.zip (List.replicate t.length K) from rfl, ih]
    ring

theorem samplerGood_new (d : List T) (K : Nat) :
    SamplerGood (SamplerLimited.new d K) := by
  unfold SamplerLimited.new
  by_cases h : K = 0
  · simp [h, SamplerGood]
  · simp only [h, if_neg, ite_false]
    refine ⟨by simp, ?_⟩
    intro m hm
    have := List.eq_of_mem_replicate hm
    omega

/-- For any oracle, a freshly constructed sampler yields exactly
`|data| * limit` elements in total. -/
theorem sampler_new_run_length (d : List T) (K : Nat) (o : Nat → Nat) (k : Nat) :
    ((SamplerLimited.new d K).run o k).length = d.length * K := by
  have h := run_map_sum (fun (_ : T) => 1)
    ((SamplerLimited.new d K).limit.sum + (SamplerLimited.new d K).limit.length)
    (SamplerLimited.new d K) le_rfl (samplerGood_new d K) o k
  rw [map_one_sum] at h
  rw [h]
  unfold SamplerLimited.new
  by_cases hK : K = 0
  · simp [hK, wsum]
  · simp only [hK, if_neg, ite_false]
    have := wsum_zip_replicate (fun _ => 1) d K
    rw [map_one_sum] at this
    rw [this]
    ring

/-- For any oracle, a freshly constructed sampler yields every input slot
exactly `limit` times: the count of a value is `limit` times its multiplicity
in `data`. -/
theorem sampler_new_run_count [DecidableEq T] (d : List T) (K : Nat)
    (o : Nat → Nat) (k : Nat) (v : T) :
    ((SamplerLimited.new d K).run o k).count v = K * d.count v := by
  have h := run_map_sum (fun (y : T) => if y = v then 1 else 0)
    ((SamplerLimited.new d K).limit.sum + (SamplerLimited.new d K).limit.length)
    (SamplerLimited.new d K) le_rfl (samplerGood_new d K) o k
  rw [map_ind_sum] at h
  rw [h]
  unfold SamplerLimited.new
  by_cases hK : K = 0
  · simp [hK, wsum]
  · simp only [hK, if_neg, ite_false]
    have := wsum_zip_replicate (fun y => if y = v then 1 else 0) d K
    rw [map_ind_sum] at this
    rw [this]

/-- Any initial segment of the sampler's yield stream (which is what a `zip`
with the parts iterator consumes) contains each value at most `limit` times
its input multiplicity. -/
theorem sampler_new_run_take_count_le [DecidableEq T] (d : List T) (K : Nat)
    (o : Nat → Nat) (k n : Nat) (v : T) :
    (((SamplerLimited.new d K).run o k).take n).count v ≤ K * d.count v := by
  have hsub := List.take_sublist n ((SamplerLimited.new d K).run o k)
  calc (((SamplerLimited.new d K).run o k).take n).count v
      ≤ ((SamplerLimited.new d K).run o k).count v := hsub.count_le v
    _ = K * d.count v := sampler_new_run_count d K o k v

/-! ### Per-artifact download records

Modelled from the spec: `DownloadStatus`, `ShardSyncDownload` and
`ShardSyncStatus` are declared in the `near-client-primitives` crate, which is
not part of this source file; their fields and constructors follow spec §3
("DownloadStatus — per-artifact record", "ShardSyncDownload — per-shard
record") and §4.1 (a fresh record has one `DownloadStatus`; the parts phase
has `num_parts` entries, all ready to run). -/

/-- Modelled from the spec: per-artifact download record (spec §3). -/
structure DownloadStatus where
  run_me : Bool
  done : Bool
  error : Bool
  state_requests_count : Nat
  last_target : Option PeerId
  start_time : Timestamp
  prev_update_time : Timestamp
deriving DecidableEq

/-- Modelled from the spec: the per-shard phase (spec §3). -/
inductive ShardSyncStatus
  | StateDownloadHeader
  | StateDownloadParts
  | StateDownloadScheduling
  | StateDownloadApplying
  | StateDownloadComplete
  | StateSplitScheduling
  | StateSplitApplying
  | StateSyncDone
deriving DecidableEq

/-- Modelled from the spec: per-shard record (spec §3). -/
structure ShardSyncDownload where
  downloads : List DownloadStatus
  status : ShardSyncStatus
deriving DecidableEq

/-- Modelled from the spec: a fresh artifact record, ready to be requested. -/
def DownloadStatus.new (now : Timestamp) : DownloadStatus :=
  { run_me := true, done := false, error := false, state_requests_count := 0,
    last_target := none, start_time := now, prev_update_time := now }

/-- Modelled from the spec: a fresh shard record in the header phase with one
artifact (spec §4.1, row "(absent) → DownloadHeader"). -/
def ShardSyncDownload.new_download_state_header (now : Timestamp) : ShardSyncDownload :=
  { downloads := [DownloadStatus.new now], status := .StateDownloadHeader }

/-- Modelled from the spec: the parts phase with `num_parts` artifacts
(spec §4.1, row "DownloadHeader → DownloadParts"). -/
def ShardSyncDownload.new_download_state_parts (now : Timestamp) (num_parts : Nat) :
    ShardSyncDownload :=
  { downloads := List.replicate num_parts (DownloadStatus.new now),
    status := .StateDownloadParts }

/-! ### The pending-request ledger and the requested-target LRU
(source lines 82-127, 1197-1214, 479-529) -/

/-- `PendingRequestStatus` (source lines 82-95). -/
structure PendingRequestStatus where
  missing_parts : Nat
  wait_until : Timestamp
deriving DecidableEq

/-- `PendingRequestStatus::new` with the clock passed explicitly. -/
def PendingRequestStatus.new (timeout now : Timestamp) : PendingRequestStatus :=
  { missing_parts := 1, wait_until := now + timeout }

/-- `PendingRequestStatus::expired` with the clock passed explicitly. -/
def PendingRequestStatus.expired (st : PendingRequestStatus) (now : Timestamp) : Bool :=
  decide (now > st.wait_until)

/-- The `last_part_id_requested` hash map, as an association list. -/
abbrev Ledger := List ((PeerId × ShardId) × PendingRequestStatus)

def ledgerGet (lg : Ledger) (k : PeerId × ShardId) : Option PendingRequestStatus :=
  match lg with
  | [] => none
  | e :: t => if e.1 = k then some e.2 else ledgerGet t k

/-- Insert-or-replace, the composite of `entry().and_modify().or_insert_with()`. -/
def ledgerInsert (lg : Ledger) (k : PeerId × ShardId) (v : PendingRequestStatus) : Ledger :=
  match lg with
  | [] => [(k, v)]
  | e :: t => if e.1 = k then (k, v) :: t else e :: ledgerInsert t k v

/-- `HashMap::remove`. -/
def ledgerRemove (lg : Ledger) (k : PeerId × ShardId) : Ledger :=
  lg.filter (fun e => !(decide (e.1 = k)))

/-- `retain(|_, request| !request.expired())`, the expiry sweep in `select_peers`. -/
def sweepLedger (lg : Ledger) (now : Timestamp) : Ledger :=
  lg.filter (fun e => !(e.2.expired now))

/-- The `requested_target` bounded LRU cache. -/
structure LruCache where
  cap : Nat
  entries : List ((Nat × CryptoHash) × PeerId)
deriving DecidableEq

/-- `LruCache::put`: insert at the front (most recently used), dropping any
older binding of the key and trimming to capacity. -/
def LruCache.put (c : LruCache) (k : Nat × CryptoHash) (v : PeerId) : LruCache :=
  { c with entries := (((k, v) :: c.entries.filter (fun e => !(decide (e.1 = k))))).take c.cap }

/-- `LruCache::get`: look up and promote the entry to most recently used. -/
def LruCache.get (c : LruCache) (k : Nat × CryptoHash) : Option PeerId × LruCache :=
  match c.entries.find? (fun e => decide (e.1 = k)) with
  | some e =>
    (some e.2, { c with entries := e :: c.entries.filter (fun x => !(decide (x.1 = k))) })
  | none => (none, c)

/-- The `StateSyncInner::Peers` payload. -/
structure PeersState where
  last_part_id_requested : Ledger
  requested_target : LruCache
deriving DecidableEq

/-- `StateSyncInner` (source lines 109-127).  The external-storage variant
keeps the chain id and the semaphore's available permits. -/
inductive StateSyncInner
  | peers (st : PeersState)
  | partsFromExternal (chain_id : String) (permits : Nat)
deriving DecidableEq

/-- `StateSyncInner` for a fresh `SyncConfig::Peers` construction
(source lines 164-168). -/
def StateSyncInner.newPeers : StateSyncInner :=
  .peers { last_part_id_requested := [],
           requested_target := { cap := MAX_PENDING_PART, entries := [] } }

/-- `sent_request_part` (source lines 1197-1214): record the target in the LRU
keyed by `(part_id, sync_hash)` — the source itself remarks the key should
have a `shard_id` too — and bump the pending ledger for `(peer_id, shard_id)`. -/
def sent_request_part (peer_id : PeerId) (part_id : Nat) (shard_id : ShardId)
    (sync_hash : CryptoHash) (st : PeersState) (timeout now : Timestamp) : PeersState :=
  let rt := st.requested_target.put (part_id, sync_hash) peer_id
  let lg := match ledgerGet st.last_part_id_requested (peer_id, shard_id) with
    | some pr => ledgerInsert st.last_part_id_requested (peer_id, shard_id)
        { pr with missing_parts := pr.missing_parts + 1 }
    | none => ledgerInsert st.last_part_id_requested (peer_id, shard_id)
        (PendingRequestStatus.new timeout now)
  { last_part_id_requested := lg, requested_target := rt }

/-- `received_requested_part` on the `Peers` payload (source lines 479-505):
look the part up in the LRU and credit whatever peer the LRU names for
`(target, shard_id)`, removing the ledger entry when it reaches zero. -/
def received_requested_part_peers (part_id : Nat) (shard_id : ShardId)
    (sync_hash : CryptoHash) (st : PeersState) : PeersState :=
  match st.requested_target.get (part_id, sync_hash) with
  | (some target, rt) =>
    match ledgerGet st.last_part_id_requested (target, shard_id) with
    | some pr =>
      let mp := pr.missing_parts - 1
      if mp = 0 then
        { last_part_id_requested := ledgerRemove st.last_part_id_requested (target, shard_id),
          requested_target := rt }
      else
        { last_part_id_requested := ledgerInsert st.last_part_id_requested (target, shard_id)
            { pr with missing_parts := mp },
          requested_target := rt }
    | none => { last_part_id_requested := st.last_part_id_requested, requested_target := rt }
  | (none, rt) => { last_part_id_requested := st.last_part_id_requested, requested_target := rt }

/-- `received_requested_part` (source lines 479-505); the external-storage
variant does nothing. -/
def received_requested_part (part_id : Nat) (shard_id : ShardId)
    (sync_hash : CryptoHash) : StateSyncInner → StateSyncInner
  | .peers st => .peers (received_requested_part_peers part_id shard_id sync_hash st)
  | .partsFromExternal c n => .partsFromExternal c n

/-- `select_peers` (source lines 508-529): in `Peers` mode, sweep expired
ledger entries and exclude peers with a still-pending request for this shard;
in external mode, no filtering. -/
def select_peers (highest_height_peers : List PeerId) (shard_id : ShardId)
    (inner : StateSyncInner) (now : Timestamp) : List PeerId × StateSyncInner :=
  match inner with
  | .peers st =>
    let lg := sweepLedger st.last_part_id_requested now
    (highest_height_peers.filter (fun p => (ledgerGet lg (p, shard_id)).isNone),
     .peers { last_part_id_requested := lg, requested_target := st.requested_target })
  | .partsFromExternal c n => (highest_height_peers, .partsFromExternal c n)

/-! ### Response ingestion and per-part retry policy
(source lines 893-916, 1219-1246) -/

/-- `process_part_response` (source lines 1219-1246): an `Ok` marks the part
done, an `Err` marks it errored.  The extra identifiers only feed metrics and
logs in the source. -/
def process_part_response (_part_id : Nat) (_shard_id : ShardId)
    (_sync_hash : CryptoHash) (part_download : DownloadStatus)
    (part_result : Except String Nat) : DownloadStatus :=
  match part_result with
  | .ok _ => { part_download with done := true }
  | .error _ => { part_download with error := true }

/-- The per-part body of the `sync_shards_download_parts_status` loop
(source lines 893-916): a part that is not done is re-armed when its request
timed out, or when it errored with a recorded `last_target`; an errored part
from external storage (no `last_target`) waits for the timeout. -/
def part_status_update (timeout now : Timestamp) (d : DownloadStatus) : DownloadStatus :=
  if !d.done then
    let part_timeout := decide (now - d.prev_update_time > timeout)
    if part_timeout || d.error then
      if part_timeout || d.last_target.isSome then
        { d with run_me := true, error := false, prev_update_time := now }
      else d
    else d
  else d

/-- `sync_shards_download_parts_status` (source lines 880-935).  Returns
`((download_timeout, run_shard_state_download), new record)`; when every part
is done the record moves to `StateDownloadScheduling` with an empty downloads
vector. -/
def sync_shards_download_parts_status (timeout now : Timestamp)
    (ssd : ShardSyncDownload) : (Bool × Bool) × ShardSyncDownload :=
  let ds := ssd.downloads.map (part_status_update timeout now)
  let download_timeout := ssd.downloads.any
    (fun d => !d.done && decide (now - d.prev_update_time > timeout))
  let run_shard := ds.any (fun d => !d.done && d.run_me)
  let parts_done := ds.all (·.done)
  if parts_done then
    ((download_timeout, run_shard), ⟨[], .StateDownloadScheduling⟩)
  else
    ((download_timeout, run_shard), { ssd with downloads := ds })

/-! ### The chain and the orchestrator's side effects

The chain store, epoch manager and runtime are external collaborators; their
responses are provided as pure oracles, and the orchestrator's outbound
actions (network sends, scheduler invocations, persisted or wiped parts) are
collected as an effect trace. -/

deriving instance DecidableEq for Except

/-- An abort of the aggregate step: a Rust `panic!` or a propagated chain
error (`?`). -/
inductive RunErr
  | panic (msg : String)
  | chainError
deriving DecidableEq

/-- Side effects the core requests from its collaborators. -/
inductive Effect
  | sendHeaderRequest (shard_id : ShardId) (sync_hash : CryptoHash) (peer_id : PeerId)
  | sendPartRequest (shard_id : ShardId) (sync_hash : CryptoHash) (part_id : Nat) (peer_id : PeerId)
  | spawnExternalFetch (shard_id : ShardId) (part_id : Nat)
  | persistHeader (shard_id : ShardId) (sync_hash : CryptoHash)
  | persistPart (shard_id : ShardId) (sync_hash : CryptoHash) (part_id : Nat)
  | scheduleApply (shard_id : ShardId)
  | scheduleSplit (shard_id : ShardId)
  | clearParts (shard_id : ShardId) (sync_hash : CryptoHash) (num_parts : Nat)
deriving DecidableEq

/-- Oracles standing for the chain store, epoch manager and runtime adapter.
`getStateHeader` returns the shard's `num_state_parts`; the `Ok` oracles
decide whether the corresponding fallible collaborator call succeeds. -/
structure ChainCtx where
  haveBlock : Bool
  prevLayout : Nat
  syncLayout : Nat
  willChange : Bool
  getStateHeader : ShardId → Except Unit Nat
  scheduleApplyOk : ShardId → Bool
  setStateFinalizeOk : ShardId → Except Unit Unit → Bool
  clearPartsOk : ShardId → Bool
  splitPreOk : ShardId → Bool
  splitPostOk : ShardId → Bool
  setStatePartOk : ShardId → Nat → Bool
  setStateHeaderOk : ShardId → Bool

/-- Remove the first binding of a key from an association list, returning the
value and the remaining list (`HashMap::remove`). -/
def assocRemove [DecidableEq κ] (l : List (κ × β)) (k : κ) : Option (β × List (κ × β)) :=
  match l with
  | [] => none
  | e :: t =>
    if e.1 = k then some (e.2, t)
    else match assocRemove t k with
      | none => none
      | some (v, t') => some (v, e :: t')

/-- `sync_shards_download_header_status` (source lines 834-873).  Returns
`((download_timeout, run_shard_state_download), new record, abort?)`. -/
def sync_shards_download_header_status (shard_id : ShardId)
    (ssd : ShardSyncDownload) (ctx : ChainCtx) (timeout now : Timestamp) :
    (Bool × Bool) × ShardSyncDownload × Option RunErr :=
  match ssd.downloads with
  | [] => ((false, false), ssd, some (.panic "downloads[0] out of bounds"))
  | d :: rest =>
    if d.done then
      match ctx.getStateHeader shard_id with
      | .ok state_num_parts =>
        ((false, true), ShardSyncDownload.new_download_state_parts now state_num_parts, none)
      | .error _ => ((false, false), ssd, some .chainError)
    else
      let download_timeout := decide (now - d.prev_update_time > timeout)
      let d1 := if download_timeout || d.error then
          { d with run_me := true, error := false, prev_update_time := now }
        else d
      ((download_timeout, d1.run_me), ⟨d1 :: rest, ssd.status⟩, none)

/-- `sync_shards_download_scheduling_status` (source lines 937-973): enqueue
the apply of all downloaded parts; on failure reset to a fresh header phase
and wipe the persisted parts. -/
def sync_shards_download_scheduling_status (shard_id : ShardId)
    (ssd : ShardSyncDownload) (sync_hash : CryptoHash) (ctx : ChainCtx)
    (now : Timestamp) : ShardSyncDownload × List Effect × Option RunErr :=
  match ctx.getStateHeader shard_id with
  | .error _ => (ssd, [], some .chainError)
  | .ok state_num_parts =>
    if ctx.scheduleApplyOk shard_id then
      (⟨[], .StateDownloadApplying⟩, [.scheduleApply shard_id], none)
    else
      (ShardSyncDownload.new_download_state_header now,
       [.clearParts shard_id sync_hash state_num_parts],
       if ctx.clearPartsOk shard_id then none else some .chainError)

/-- `sync_shards_download_applying_status` (source lines 975-1008): wait for
the apply result; on a finalization failure reset to a fresh header phase and
wipe the persisted parts. -/
def sync_shards_download_applying_status (shard_id : ShardId)
    (ssd : ShardSyncDownload) (sync_hash : CryptoHash) (ctx : ChainCtx)
    (apply_results : List (ShardId × Except Unit Unit)) (now : Timestamp) :
    ShardSyncDownload × List (ShardId × Except Unit Unit) × List Effect × Option RunErr :=
  match assocRemove apply_results shard_id with
  | none => (ssd, apply_results, [], none)
  | some (result, rest) =>
    if ctx.setStateFinalizeOk shard_id result then
      (⟨[], .StateDownloadComplete⟩, rest, [], none)
    else
      match ctx.getStateHeader shard_id with
      | .error _ =>
        (ShardSyncDownload.new_download_state_header now, rest, [], some .chainError)
      | .ok state_num_parts =>
        (ShardSyncDownload.new_download_state_header now, rest,
         [.clearParts shard_id sync_hash state_num_parts],
         if ctx.clearPartsOk shard_id then none else some .chainError)

/-- `sync_shards_download_complete_status` (source lines 1010-1028): move to
split scheduling when the layout will change, otherwise the shard is done. -/
def sync_shards_download_complete_status (split_states : Bool) :
    ShardSyncDownload × Bool :=
  if split_states then (⟨[], .StateSplitScheduling⟩, false)
  else (⟨[], .StateSyncDone⟩, true)

/-- `sync_shards_state_split_scheduling_status` (source lines 1030-1048). -/
def sync_shards_state_split_scheduling_status (shard_id : ShardId)
    (ssd : ShardSyncDownload) (ctx : ChainCtx) :
    ShardSyncDownload × List Effect × Option RunErr :=
  if ctx.splitPreOk shard_id then
    (⟨[], .StateSplitApplying⟩, [.scheduleSplit shard_id], none)
  else (ssd, [], some .chainError)

/-- `sync_shards_state_split_applying_status` (source lines 1050-1071): wait
for the split result; an error result or a failed postprocessing aborts the
aggregate step via `?`. -/
def sync_shards_state_split_applying_status (shard_id : ShardId)
    (ssd : ShardSyncDownload) (ctx : ChainCtx)
    (split_roots : List (ShardId × Except Unit Unit)) :
    ShardSyncDownload × List (ShardId × Except Unit Unit) × Bool × Option RunErr :=
  match assocRemove split_roots shard_id with
  | none => (ssd, split_roots, false, none)
  | some (result, rest) =>
    match result with
    | .error _ => (ssd, rest, false, some .chainError)
    | .ok _ =>
      if ctx.splitPostOk shard_id then (⟨[], .StateSyncDone⟩, rest, true, none)
      else (ssd, rest, false, some .chainError)

/-! ### The download dispatcher (source lines 532-690, 1086-1195) -/

/-- `request_shard_header` (source lines 578-608): pick one target uniformly,
assert the artifact is armed, disarm it and send the request.  The async
`RouteNotFound` callback happens outside the tick and is not part of this
step. -/
def request_shard_header (shard_id : ShardId) (sync_hash : CryptoHash)
    (possible_targets : List PeerId) (ssd : ShardSyncDownload) (draw : Nat) :
    ShardSyncDownload × List Effect × Option RunErr :=
  let peer_id := possible_targets.getD (draw % possible_targets.length) 0
  match ssd.downloads with
  | [] => (ssd, [], some (.panic "downloads[0] out of bounds"))
  | d :: rest =>
    if !d.run_me then (ssd, [], some (.panic "assertion failed: run_me"))
    else
      ({ downloads :=
           { d with
             run_me := false,
             state_requests_count := d.state_requests_count + 1,
             last_target := some peer_id } :: rest,
         status := ssd.status },
       [.sendHeaderRequest shard_id sync_hash peer_id], none)

/-- The `zip` of `parts_to_fetch` (artifacts with `run_me`) with the sampler's
target stream: walk the downloads in order, pair each armed part with the next
target and disarm it (`request_part_from_peers`, source lines 1164-1195);
when the target stream runs dry the remaining parts are left untouched. -/
def assignParts (idx : Nat) (ds : List DownloadStatus) (targets : List PeerId) :
    List (Nat × PeerId) × List DownloadStatus :=
  match ds with
  | [] => ([], [])
  | d :: rest =>
    if d.run_me then
      match targets with
      | [] => ([], d :: rest)
      | t :: ts =>
        let (asg, rest1) := assignParts (idx + 1) rest ts
        ((idx, t) :: asg,
         { d with
           run_me := false,
           state_requests_count := d.state_requests_count + 1,
           last_target := some t } :: rest1)
    else
      let (asg, rest1) := assignParts (idx + 1) rest targets
      (asg, d :: rest1)

/-- The `Peers` arm of `request_shard_parts` (source lines 623-656): build the
bounded sampler over the candidates, zip it with the parts to fetch, and for
each pair record the pending request (`sent_request_part`) and send the
network message. -/
def request_shard_parts_peers (shard_id : ShardId) (sync_hash : CryptoHash)
    (possible_targets : List PeerId) (ssd : ShardSyncDownload) (st : PeersState)
    (timeout now : Timestamp) (samplerOracle : Nat → Nat) :
    ShardSyncDownload × PeersState × List Effect :=
  let targets := (SamplerLimited.new possible_targets MAX_STATE_PART_REQUEST).run samplerOracle 0
  let (asg, ds) := assignParts 0 ssd.downloads targets
  let st1 := asg.foldl
    (fun acc a => sent_request_part a.2 a.1 shard_id sync_hash acc timeout now) st
  (⟨ds, ssd.status⟩, st1,
   asg.map (fun a => Effect.sendPartRequest shard_id sync_hash a.1 a.2))

/-- The external-storage dispatch loop body
(`request_part_from_external_storage`, source lines 1086-1161, plus the
`available_permits() == 0` break in the caller): disarm the part and count the
attempt, spawn a fetch task while a semaphore permit is available, restore
`run_me` on `NoPermits`, and stop the walk once permits hit zero. -/
def dispatchExternal (shard_id : ShardId) (idx : Nat) (ds : List DownloadStatus)
    (permits : Nat) : List DownloadStatus × Nat × List Effect :=
  match ds with
  | [] => ([], permits, [])
  | d :: rest =>
    if d.run_me then
      let d1 :=
        { d with
          run_me := false,
          state_requests_count := d.state_requests_count + 1,
          last_target := none }
      if permits = 0 then
        ({ d1 with run_me := true } :: rest, 0, [])
      else
        let permits1 := permits - 1
        if permits1 = 0 then
          (d1 :: rest, 0, [.spawnExternalFetch shard_id idx])
        else
          let (rest1, p2, effs) := dispatchExternal shard_id (idx + 1) rest permits1
          (d1 :: rest1, p2, .spawnExternalFetch shard_id idx :: effs)
    else
      let (rest1, p2, effs) := dispatchExternal shard_id (idx + 1) rest permits
      (d :: rest1, p2, effs)

/-- The external arm of `request_shard_parts` (source lines 657-688).  The
source unwraps `get_state_header`; a failure is a panic. -/
def request_shard_parts_external (shard_id : ShardId) (ssd : ShardSyncDownload)
    (permits : Nat) (ctx : ChainCtx) :
    ShardSyncDownload × Nat × List Effect × Option RunErr :=
  match ctx.getStateHeader shard_id with
  | .error _ => (ssd, permits, [], some (.panic "get_state_header unwrap"))
  | .ok _ =>
    let (ds, p2, effs) := dispatchExternal shard_id 0 ssd.downloads permits
    (⟨ds, ssd.status⟩, p2, effs, none)

/-- `request_shard` (source lines 532-575): select candidate peers (sweeping
the ledger in `Peers` mode), return immediately when none remain, otherwise
dispatch according to the phase. -/
def request_shard (shard_id : ShardId) (sync_hash : CryptoHash)
    (ssd : ShardSyncDownload) (highest_height_peers : List PeerId)
    (inner : StateSyncInner) (ctx : ChainCtx) (timeout now : Timestamp)
    (headerDraw : Nat) (samplerOracle : Nat → Nat) :
    ShardSyncDownload × StateSyncInner × List Effect × Option RunErr :=
  let sel := select_peers highest_height_peers shard_id inner now
  let possible_targets := sel.1
  let inner1 := sel.2
  if possible_targets.isEmpty then (ssd, inner1, [], none)
  else
    match ssd.status with
    | .StateDownloadHeader =>
      let (ssd1, effs, err) :=
        request_shard_header shard_id sync_hash possible_targets ssd headerDraw
      (ssd1, inner1, effs, err)
    | .StateDownloadParts =>
      match inner1 with
      | .peers st =>
        let (ssd1, st1, effs) := request_shard_parts_peers shard_id sync_hash
          possible_targets ssd st timeout now samplerOracle
        (ssd1, .peers st1, effs, none)
      | .partsFromExternal cid permits =>
        let (ssd1, p2, effs, err) :=
          request_shard_parts_external shard_id ssd permits ctx
        (ssd1, .partsFromExternal cid p2, effs, err)
    | _ => (ssd, inner1, [], none)

/-! ### The direct-peer response entry point (source lines 763-826) -/

/-- A `ShardStateSyncResponse`, reduced to what the handler inspects: an
optional header payload and an optional `(part_id, data)` pair. -/
structure ShardStateSyncResponse where
  header? : Option Unit
  part? : Option (Nat × Unit)
deriving DecidableEq

/-- `ShardStateSyncResponse::part_id`. -/
def ShardStateSyncResponse.part_id (r : ShardStateSyncResponse) : Option Nat :=
  r.part?.map Prod.fst

/-- `update_download_on_state_response_message` (source lines 763-826).
`received_requested_part` runs first, before any validation.  For header
responses, persist and mark done (or error).  For part responses, reject
`part_id >= num_parts`, otherwise persist via `set_state_part` and mark
done/error. -/
def update_download_on_state_response_message (ssd : ShardSyncDownload)
    (hash : CryptoHash) (shard_id : ShardId)
    (state_response : ShardStateSyncResponse) (ctx : ChainCtx)
    (inner : StateSyncInner) : ShardSyncDownload × StateSyncInner × List Effect :=
  let inner1 := match state_response.part_id with
    | some part_id => received_requested_part part_id shard_id hash inner
    | none => inner
  match ssd.status with
  | .StateDownloadHeader =>
    match ssd.downloads with
    | [] => (ssd, inner1, [])
    | d :: rest =>
      match state_response.header? with
      | some _ =>
        if !d.done then
          if ctx.setStateHeaderOk shard_id then
            ({ downloads := { d with done := true } :: rest, status := ssd.status },
             inner1, [.persistHeader shard_id hash])
          else
            ({ downloads := { d with error := true } :: rest, status := ssd.status },
             inner1, [])
        else (ssd, inner1, [])
      | none =>
        if !d.done then
          ({ downloads := { d with error := true } :: rest, status := ssd.status },
           inner1, [])
        else (ssd, inner1, [])
  | .StateDownloadParts =>
    match state_response.part? with
    | some (part_id, _) =>
      let num_parts := ssd.downloads.length
      if part_id ≥ num_parts then (ssd, inner1, [])
      else
        match ssd.downloads.get? part_id with
        | none => (ssd, inner1, [])
        | some d =>
          if !d.done then
            if ctx.setStatePartOk shard_id part_id then
              ({ downloads := ssd.downloads.set part_id { d with done := true },
                 status := ssd.status }, inner1, [.persistPart shard_id hash part_id])
            else
              ({ downloads := ssd.downloads.set part_id { d with error := true },
                 status := ssd.status }, inner1, [])
          else (ssd, inner1, [])
    | none => (ssd, inner1, [])
  | _ => (ssd, inner1, [])

/-! ### The orchestrator (source lines 156-247, 251-396, 399-435, 696-761) -/

/-- `StateSyncGetPartResult` (source lines 99-106). -/
structure StateSyncGetPartResult where
  sync_hash : CryptoHash
  shard_id : ShardId
  part_idx : Nat
  part_result : Except String Nat
deriving DecidableEq

/-- The caller-owned `sync_status: HashMap<u64, ShardSyncDownload>`. -/
abbrev SyncMap := List (ShardId × ShardSyncDownload)

def mapGet (m : SyncMap) (s : ShardId) : Option ShardSyncDownload :=
  match m with
  | [] => none
  | e :: t => if e.1 = s then some e.2 else mapGet t s

def mapSet (m : SyncMap) (s : ShardId) (v : ShardSyncDownload) : SyncMap :=
  match m with
  | [] => [(s, v)]
  | e :: t => if e.1 = s then (s, v) :: t else e :: mapSet t s v

/-- The mutable fields of `StateSync` (source lines 130-154), minus the
channel plumbing: inbound messages are passed to `run` as a list. -/
structure SSState where
  inner : StateSyncInner
  last_time_block_requested : Option Timestamp
  timeout : Timestamp
  state_parts_apply_results : List (ShardId × Except Unit Unit)
  split_state_roots : List (ShardId × Except Unit Unit)
  randCtr : Nat
deriving DecidableEq

/-- `StateSyncResult` (source lines 73-80). -/
inductive StateSyncResult
  | inProgress
  | requestBlock
  | completed
deriving DecidableEq

/-- `process_downloaded_parts` (source lines 399-435): drain the channel;
drop messages for another sync hash, for unknown shards, for shards not in
the parts phase, or with an out-of-range index; otherwise update the one
part slot. -/
def process_downloaded_parts (sync_hash : CryptoHash)
    (msgs : List StateSyncGetPartResult) (m : SyncMap) : SyncMap :=
  msgs.foldl (fun acc msg =>
    if msg.sync_hash ≠ sync_hash then acc
    else match mapGet acc msg.shard_id with
      | none => acc
      | some ssd =>
        if ssd.status ≠ .StateDownloadParts then acc
        else match ssd.downloads.get? msg.part_idx with
          | none => acc
          | some d =>
            mapSet acc msg.shard_id
              { downloads := ssd.downloads.set msg.part_idx
                  (process_part_response msg.part_idx msg.shard_id sync_hash d
                    msg.part_result),
                status := ssd.status }) m

/-- `sync_block_status` (source lines 217-247): decide whether the sync block
(`prev_hash` of `sync_hash`) must be (re-)requested, and update the request
timestamp. -/
def sync_block_status (blockExists : Bool)
    (last_time_block_requested : Option Timestamp) (timeout now : Timestamp) :
    Bool × Bool × Option Timestamp :=
  let rhl :=
    if !blockExists then
      match last_time_block_requested with
      | none => (true, false, last_time_block_requested)
      | some last_time =>
        if decide (now - last_time ≥ timeout) then (true, false, last_time_block_requested)
        else (false, false, last_time_block_requested)
    else (false, true, (none : Option Timestamp))
  let last2 := if rhl.1 then some now else rhl.2.2
  (rhl.1, rhl.2.1, last2)

/-- The result of advancing one shard's phase, before dispatch. -/
structure StatusStep where
  ssd : ShardSyncDownload
  apply_results : List (ShardId × Except Unit Unit)
  split_roots : List (ShardId × Except Unit Unit)
  effects : List Effect
  err : Option RunErr
  shardDone : Bool
  runFlag : Bool
deriving DecidableEq

/-- The `match shard_sync_download.status` dispatch inside `sync_shards_status`
(source lines 292-355). -/
def stepShardStatus (ctx : ChainCtx) (sync_hash : CryptoHash)
    (timeout now : Timestamp) (split_states : Bool)
    (apply_results split_roots : List (ShardId × Except Unit Unit))
    (shard_id : ShardId) (ssd0 : ShardSyncDownload) : StatusStep :=
  match ssd0.status with
  | .StateDownloadHeader =>
    let r := sync_shards_download_header_status shard_id ssd0 ctx timeout now
    ⟨r.2.1, apply_results, split_roots, [], r.2.2, false, r.1.2⟩
  | .StateDownloadParts =>
    let r := sync_shards_download_parts_status timeout now ssd0
    ⟨r.2, apply_results, split_roots, [], none, false, r.1.2⟩
  | .StateDownloadScheduling =>
    let r := sync_shards_download_scheduling_status shard_id ssd0 sync_hash ctx now
    ⟨r.1, apply_results, split_roots, r.2.1, r.2.2, false, false⟩
  | .StateDownloadApplying =>
    let r := sync_shards_download_applying_status shard_id ssd0 sync_hash ctx
      apply_results now
    ⟨r.1, r.2.1, split_roots, r.2.2.1, r.2.2.2, false, false⟩
  | .StateDownloadComplete =>
    let r := sync_shards_download_complete_status split_states
    ⟨r.1, apply_results, split_roots, [], none, r.2, false⟩
  | .StateSplitScheduling =>
    let r := sync_shards_state_split_scheduling_status shard_id ssd0 ctx
    ⟨r.1, apply_results, split_roots, r.2.1, r.2.2, false, false⟩
  | .StateSplitApplying =>
    let r := sync_shards_state_split_applying_status shard_id ssd0 ctx split_roots
    ⟨r.1, apply_results, r.2.1, [], r.2.2.2, r.2.2.1, false⟩
  | .StateSyncDone =>
    ⟨ssd0, apply_results, split_roots, [], none, true, false⟩

/-- The loop state threaded through `sync_shards_status`. -/
structure LoopState where
  map : SyncMap
  ss : SSState
  effects : List Effect
  allDone : Bool
  err : Option RunErr
deriving DecidableEq

/-- One iteration of the `for shard_id in tracking_shards` loop of
`sync_shards_status` (source lines 281-393): create the record on first
sight, advance the phase, accumulate `all_done`, and dispatch requests when
needed.  A previously recorded abort (`?`) skips the remaining shards. -/
def processOneShard (ctx : ChainCtx) (sync_hash : CryptoHash)
    (highest_height_peers : List PeerId) (now : Timestamp) (split_states : Bool)
    (oracle : Nat → Nat → Nat) (ls : LoopState) (shard_id : ShardId) : LoopState :=
  match ls.err with
  | some _ => ls
  | none =>
    let ssd0 := (mapGet ls.map shard_id).getD (ShardSyncDownload.new_download_state_header now)
    let st := stepShardStatus ctx sync_hash ls.ss.timeout now split_states
      ls.ss.state_parts_apply_results ls.ss.split_state_roots shard_id ssd0
    let ss1 :=
      { ls.ss with
        state_parts_apply_results := st.apply_results,
        split_state_roots := st.split_roots }
    match st.err with
    | some e =>
      { map := mapSet ls.map shard_id st.ssd, ss := ss1,
        effects := ls.effects ++ st.effects, allDone := ls.allDone, err := some e }
    | none =>
      if st.runFlag then
        let r := request_shard shard_id sync_hash st.ssd highest_height_peers
          ss1.inner ctx ss1.timeout now (oracle ss1.randCtr 0)
          (fun i => oracle ss1.randCtr (i + 1))
        { map := mapSet ls.map shard_id r.1,
          ss := { ss1 with inner := r.2.1, randCtr := ss1.randCtr + 1 },
          effects := ls.effects ++ st.effects ++ r.2.2.1,
          allDone := ls.allDone && st.shardDone,
          err := r.2.2.2 }
      else
        { map := mapSet ls.map shard_id st.ssd, ss := ss1,
          effects := ls.effects ++ st.effects,
          allDone := ls.allDone && st.shardDone, err := none }

/-- `sync_shards_status` (source lines 251-396): panic when the shard layout
changes between the previous epoch and the sync epoch, otherwise advance every
tracked shard. -/
def sync_shards_status (ctx : ChainCtx) (sync_hash : CryptoHash) (map : SyncMap)
    (ss : SSState) (highest_height_peers : List PeerId)
    (tracking_shards : List ShardId) (now : Timestamp)
    (oracle : Nat → Nat → Nat) : LoopState :=
  if ctx.prevLayout ≠ ctx.syncLayout then
    { map := map, ss := ss, effects := [], allDone := true,
      err := some (.panic "cannot sync to the first epoch after sharding upgrade. Please wait for the next epoch or find peers that are more up to date") }
  else
    tracking_shards.foldl
      (processOneShard ctx sync_hash highest_height_peers now ctx.willChange oracle)
      { map := map, ss := ss, effects := [], allDone := true, err := none }

/-- `run` (source lines 696-761), the per-tick step: check the sync block,
return right away on an empty tracking set, otherwise ingest responses,
advance all shards, and combine the tri-state result. -/
def run (ctx : ChainCtx) (sync_hash : CryptoHash) (map : SyncMap) (ss : SSState)
    (highest_height_peers : List PeerId) (tracking_shards : List ShardId)
    (msgs : List StateSyncGetPartResult) (now : Timestamp)
    (oracle : Nat → Nat → Nat) :
    Except RunErr StateSyncResult × SyncMap × SSState × List Effect :=
  let rb := sync_block_status ctx.haveBlock ss.last_time_block_requested ss.timeout now
  let request_block := rb.1
  let have_block := rb.2.1
  let ss1 := { ss with last_time_block_requested := rb.2.2 }
  if tracking_shards.isEmpty then
    (if !have_block then
       if request_block then .ok .requestBlock else .ok .inProgress
     else .ok .completed, map, ss1, [])
  else
    let map1 := process_downloaded_parts sync_hash msgs map
    let ls := sync_shards_status ctx sync_hash map1 ss1 highest_height_peers
      tracking_shards now oracle
    match ls.err with
    | some e => (.error e, ls.map, ls.ss, ls.effects)
    | none =>
      if have_block && ls.allDone then (.ok .completed, ls.map, ls.ss, ls.effects)
      else if request_block then (.ok .requestBlock, ls.map, ls.ss, ls.effects)
      else (.ok .inProgress, ls.map, ls.ss, ls.effects)

/-! ### Ghost accounting of outstanding part requests

To reason about "outstanding (unanswered, unexpired) part requests" — a
quantity the code does not store — the `Peers`-mode ledger and LRU are paired
with a ghost multiset of issued requests.  A *tick* transition is one
execution of `request_shard_parts` for one shard: the candidates are the
peers admitted by `select_peers` (so the ledger has been swept and candidates
have no live entry for this shard), the sampler hands each candidate to at
most `MAX_STATE_PART_REQUEST` parts (that bound is exactly
`sampler_new_run_take_count_le`), and each issued pair goes through
`sent_request_part`.  A *response* transition answers one outstanding request
`(part, shard)` and runs `received_requested_part` exactly as the source
does. -/

/-- A ghost record of one issued, not yet answered part request.  Its
`deadline` is `issue_time + timeout`, the moment the matching
`PendingRequestStatus` would expire. -/
structure GhostReq where
  peer : PeerId
  shard : ShardId
  part : Nat
  deadline : Timestamp
deriving DecidableEq

/-- `Peers`-mode state plus the ghost multiset of outstanding requests. -/
structure PState where
  ps : PeersState
  outstanding : List GhostReq
deriving DecidableEq

/-- The ledger sweep of `select_peers` applied to the whole `Peers` payload. -/
def sweepPS (st : PeersState) (now : Timestamp) : PeersState :=
  { st with last_part_id_requested := sweepLedger st.last_part_id_requested now }

/-- One tick's issued assignments folded through `sent_request_part`. -/
def applyAssignments (now : Timestamp) (shard_id : ShardId) (sync_hash : CryptoHash)
    (timeout : Timestamp) (asg : List (PeerId × Nat)) (st : PeersState) : PeersState :=
  asg.foldl (fun acc a => sent_request_part a.1 a.2 shard_id sync_hash acc timeout now) st

/-- The state after one tick of `request_shard_parts` for one shard. -/
def tickNext (timeout : Timestamp) (sync_hash : CryptoHash) (st : PState)
    (now : Timestamp) (shard_id : ShardId) (asg : List (PeerId × Nat)) : PState :=
  { ps := applyAssignments now shard_id sync_hash timeout asg (sweepPS st.ps now),
    outstanding := st.outstanding
      ++ asg.map (fun a => { peer := a.1, shard := shard_id, part := a.2,
                             deadline := now + timeout }) }

/-- The state after a response answering the outstanding request `r`. -/
def respNext (sync_hash : CryptoHash) (st : PState) (r : GhostReq) : PState :=
  { ps := received_requested_part_peers r.part r.shard sync_hash st.ps,
    outstanding := st.outstanding.erase r }

/-- The transitions of the `Peers`-mode request system. -/
inductive PStep (timeout : Timestamp) (sync_hash : CryptoHash) : PState → PState → Prop
  | tick (st : PState) (now : Timestamp) (shard_id : ShardId)
      (asg : List (PeerId × Nat))
      (hcount : ∀ p ∈ asg.map Prod.fst,
        (asg.map Prod.fst).count p ≤ MAX_STATE_PART_REQUEST)
      (hcand : ∀ a ∈ asg,
        ledgerGet (sweepLedger st.ps.last_part_id_requested now) (a.1, shard_id) = none)
      (hparts : (asg.map Prod.snd).Nodup) :
      PStep timeout sync_hash st (tickNext timeout sync_hash st now shard_id asg)
  | response (st : PState) (r : GhostReq) (hmem : r ∈ st.outstanding) :
      PStep timeout sync_hash st (respNext sync_hash st r)

/-- The initial `Peers` state (source lines 164-168): empty ledger, empty LRU
of capacity `MAX_PENDING_PART`, nothing outstanding. -/
def initPState : PState :=
  { ps := { last_part_id_requested := [],
            requested_target := { cap := MAX_PENDING_PART, entries := [] } },
    outstanding := [] }

/-- Reachability from the initial state. -/
inductive PReach (timeout : Timestamp) (sync_hash : CryptoHash) : PState → Prop
  | init : PReach timeout sync_hash initPState
  | step {s s' : PState} : PReach timeout sync_hash s →
      PStep timeout sync_hash s s' → PReach timeout sync_hash s'

/-- The number of outstanding, unexpired requests to peer `p` for shard `s`. -/
def outstandingCount (st : PState) (p : PeerId) (s : ShardId) (now : Timestamp) : Nat :=
  (st.outstanding.filter
    (fun r => decide (r.peer = p) && decide (r.shard = s) && decide (now ≤ r.deadline))).length

/-- The pending count the ledger records for `(p, s)`. -/
def ledgerMissing (lg : Ledger) (p : PeerId) (s : ShardId) : Nat :=
  match ledgerGet lg (p, s) with
  | some pr => pr.missing_parts
  | none => 0

/-- The ledger's keys, pairwise distinct in every reachable state. -/
def ledgerKeysNodup (lg : Ledger) : Prop := (lg.map Prod.fst).Nodup

theorem ledgerGet_insert_eq (lg : Ledger) (k : PeerId × ShardId)
    (v : PendingRequestStatus) : ledgerGet (ledgerInsert lg k v) k = some v := by
  induction lg with
  | nil => simp [ledgerInsert, ledgerGet]
  | cons e t ih =>
    by_cases h : e.1 = k
    · simp [ledgerInsert, h, ledgerGet]
    · simp [ledgerInsert, h, ledgerGet, ih]

theorem ledgerGet_insert_ne (lg : Ledger) (k k' : PeerId × ShardId)
    (v : PendingRequestStatus) (h : k' ≠ k) :
    ledgerGet (ledgerInsert lg k v) k' = ledgerGet lg k' := by
  have hkk : ¬ (k = k') := fun hc => h hc.symm
  induction lg with
  | nil =>
    show ledgerGet [(k, v)] k' = none
    show (if k = k' then some v else ledgerGet [] k') = none
    rw [if_neg hkk]
    rfl
  | cons e t ih =>
    show ledgerGet (if e.1 = k then (k, v) :: t else e :: ledgerInsert t k v) k'
      = ledgerGet (e :: t) k'
    by_cases he : e.1 = k
    · rw [if_pos he]
      have he' : ¬ (e.1 = k') := by rw [he]; exact hkk
      show (if k = k' then some v else ledgerGet t k')
        = if e.1 = k' then some e.2 else ledgerGet t k'
      rw [if_neg hkk, if_neg he']
    · rw [if_neg he]
      show (if e.1 = k' then some e.2 else ledgerGet (ledgerInsert t k v) k')
        = if e.1 = k' then some e.2 else ledgerGet t k'
      rw [ih]

theorem ledgerGet_none_of_not_mem (lg : Ledger) (k : PeerId × ShardId)
    (h : k ∉ lg.map Prod.fst) : ledgerGet lg k = none := by
  induction lg with
  | nil => rfl
  | cons e t ih =>
    simp only [List.map_cons, List.mem_cons, not_or] at h
    have he : ¬ (e.1 = k) := fun hc => h.1 hc.symm
    show (if e.1 = k then some e.2 else ledgerGet t k) = none
    rw [if_neg he]
    exact ih h.2

theorem mem_keys_ledgerInsert (lg : Ledger) (k k' : PeerId × ShardId)
    (v : PendingRequestStatus) (h : k' ∈ (ledgerInsert lg k v).map Prod.fst) :
    k' ∈ lg.map Prod.fst ∨ k' = k := by
  induction lg with
  | nil =>
    simp only [ledgerInsert, List.map_cons, List.map_nil, List.mem_singleton] at h
    exact Or.inr h
  | cons e t ih =>
    by_cases he : e.1 = k
    · rw [show ledgerInsert (e :: t) k v = (k, v) :: t by
        show (if e.1 = k then (k, v) :: t else e :: ledgerInsert t k v) = _
        rw [if_pos he]] at h
      simp only [List.map_cons, List.mem_cons] at h
      rcases h with h | h
      · exact Or.inr h
      · exact Or.inl (List.mem_cons_of_mem _ h)
    · rw [show ledgerInsert (e :: t) k v = e :: ledgerInsert t k v by
        show (if e.1 = k then (k, v) :: t else e :: ledgerInsert t k v) = _
        rw [if_neg he]] at h
      simp only [List.map_cons, List.mem_cons] at h
      rcases h with h | h
      · exact Or.inl (List.mem_cons.mpr (Or.inl h))
      · rcases ih h with h' | h'
        · exact Or.inl (List.mem_cons_of_mem _ h')
        · exact Or.inr h'

theorem ledgerKeysNodup_insert (lg : Ledger) (k : PeerId × ShardId)
    (v : PendingRequestStatus) (h : ledgerKeysNodup lg) :
    ledgerKeysNodup (ledgerInsert lg k v) := by
  induction lg with
  | nil => simp [ledgerInsert, ledgerKeysNodup]
  | cons e t ih =>
    unfold ledgerKeysNodup at h ⊢
    simp only [List.map_cons, List.nodup_cons] at h
    by_cases he : e.1 = k
    · subst he
      rw [show ledgerInsert (e :: t) e.1 v = (e.1, v) :: t by
        show (if e.1 = e.1 then (e.1, v) :: t else e :: ledgerInsert t e.1 v) = _
        rw [if_pos rfl]]
      simp only [List.map_cons, List.nodup_cons]
      exact h
    · rw [show ledgerInsert (e :: t) k v = e :: ledgerInsert t k v by
        show (if e.1 = k then (k, v) :: t else e :: ledgerInsert t k v) = _
        rw [if_neg he]]
      simp only [List.map_cons, List.nodup_cons]
      refine ⟨?_, ih h.2⟩
      intro hc
      rcases mem_keys_ledgerInsert t k e.1 v hc with h' | h'
      · exact h.1 h'
      · exact he h'

theorem ledgerKeysNodup_filter (lg : Ledger) (pred : (PeerId × ShardId) × PendingRequestStatus → Bool)
    (h : ledgerKeysNodup lg) : ledgerKeysNodup (lg.filter pred) := by
  unfold ledgerKeysNodup at h ⊢
  exact h.sublist ((lg.filter_sublist).map Prod.fst)

/-- Over a duplicate-free ledger, a `filter` either drops a key or leaves its
binding unchanged. -/
theorem ledgerGet_filter_le (lg : Ledger)
    (pred : (PeerId × ShardId) × PendingRequestStatus → Bool)
    (k : PeerId × ShardId) (h : ledgerKeysNodup lg) :
    ledgerGet (lg.filter pred) k = none ∨ ledgerGet (lg.filter pred) k = ledgerGet lg k := by
  induction lg with
  | nil => simp [ledgerGet]
  | cons e t ih =>
    unfold ledgerKeysNodup at h
    simp only [List.map_cons, List.nodup_cons] at h
    by_cases hk : e.1 = k
    · subst hk
      have htn : ledgerGet t e.1 = none :=
        ledgerGet_none_of_not_mem t e.1 h.1
      by_cases hp : pred e
      · rw [List.filter_cons_of_pos hp]
        right
        simp [ledgerGet]
      · rw [List.filter_cons_of_neg (by simpa using hp)]
        left
        have hsub : ∀ x ∈ t.filter pred, x ∈ t := fun x hx => (List.mem_filter.mp hx).1
        apply ledgerGet_none_of_not_mem
        intro hc
        rcases List.mem_map.mp hc with ⟨x, hx1, hx2⟩
        exact h.1 (List.mem_map.mpr ⟨x, hsub x hx1, hx2⟩)
    · by_cases hp : pred e
      · rw [List.filter_cons_of_pos hp]
        rcases ih h.2 with h' | h'
        · left
          simpa [ledgerGet, hk] using h'
        · right
          simp [ledgerGet, hk, h']
      · rw [List.filter_cons_of_neg (by simpa using hp)]
        rcases ih h.2 with h' | h'
        · left; exact h'
        · right
          simp [ledgerGet, hk, h']

theorem ledgerGet_remove_eq (lg : Ledger) (k : PeerId × ShardId) :
    ledgerGet (ledgerRemove lg k) k = none := by
  induction lg with
  | nil => rfl
  | cons e t ih =>
    unfold ledgerRemove at ih ⊢
    by_cases he : e.1 = k
    · rw [List.filter_cons_of_neg (by simp [he])]
      exact ih
    · rw [List.filter_cons_of_pos (by simp [he])]
      show (if e.1 = k then some e.2 else ledgerGet (t.filter _) k) = none
      rw [if_neg he]
      exact ih

theorem ledgerGet_remove_ne (lg : Ledger) (k k' : PeerId × ShardId) (h : k' ≠ k) :
    ledgerGet (ledgerRemove lg k) k' = ledgerGet lg k' := by
  induction lg with
  | nil => rfl
  | cons e t ih =>
    unfold ledgerRemove at ih ⊢
    by_cases he : e.1 = k
    · rw [List.filter_cons_of_neg (by simp [he])]
      have he' : ¬ (e.1 = k') := by rw [he]; exact fun hc => h hc.symm
      rw [ih]
      show ledgerGet t k' = if e.1 = k' then some e.2 else ledgerGet t k'
      rw [if_neg he']
    · rw [List.filter_cons_of_pos (by simp [he])]
      show (if e.1 = k' then some e.2 else ledgerGet (t.filter _) k')
        = if e.1 = k' then some e.2 else ledgerGet t k'
      by_cases he' : e.1 = k'
      · rw [if_pos he', if_pos he']
      · rw [if_neg he', if_neg he', ih]

/-- The ledger component of `sent_request_part`, spelled out. -/
theorem sent_request_part_ledger (p : PeerId) (i : Nat) (s : ShardId)
    (hash : CryptoHash) (st : PeersState) (timeout now : Timestamp) :
    (sent_request_part p i s hash st timeout now).last_part_id_requested
      = (match ledgerGet st.last_part_id_requested (p, s) with
        | some pr => ledgerInsert st.last_part_id_requested (p, s)
            { pr with missing_parts := pr.missing_parts + 1 }
        | none => ledgerInsert st.last_part_id_requested (p, s)
            (PendingRequestStatus.new timeout now)) := rfl

/-- The LRU component of `sent_request_part`, spelled out. -/
theorem sent_request_part_lru (p : PeerId) (i : Nat) (s : ShardId)
    (hash : CryptoHash) (st : PeersState) (timeout now : Timestamp) :
    (sent_request_part p i s hash st timeout now).requested_target
      = st.requested_target.put (i, hash) p := rfl

/-- `sent_request_part` adds exactly one pending unit at `(peer, shard)` and
leaves every other ledger cell unchanged. -/
theorem ledgerMissing_sent_request_part (p : PeerId) (i : Nat) (s : ShardId)
    (hash : CryptoHash) (st : PeersState) (timeout now : Timestamp)
    (q : PeerId) (s' : ShardId) :
    ledgerMissing (sent_request_part p i s hash st timeout now).last_part_id_requested q s'
      = ledgerMissing st.last_part_id_requested q s'
        + (if q = p ∧ s' = s then 1 else 0) := by
  have hlg := sent_request_part_ledger p i s hash st timeout now
  by_cases hqs : q = p ∧ s' = s
  · obtain ⟨hq, hs⟩ := hqs
    subst hq; subst hs
    cases hget : ledgerGet st.last_part_id_requested (q, s') with
    | some pr =>
      rw [hget] at hlg
      dsimp only at hlg
      unfold ledgerMissing
      rw [hlg, ledgerGet_insert_eq, hget]
      simp
    | none =>
      rw [hget] at hlg
      dsimp only at hlg
      unfold ledgerMissing
      rw [hlg, ledgerGet_insert_eq, hget]
      simp [PendingRequestStatus.new]
  · have hne : (q, s') ≠ (p, s) := by
      intro hc
      rw [Prod.mk.injEq] at hc
      exact hqs hc
    cases hget : ledgerGet st.last_part_id_requested (p, s) with
    | some pr =>
      rw [hget] at hlg
      dsimp only at hlg
      unfold ledgerMissing
      rw [hlg, ledgerGet_insert_ne _ _ _ _ hne]
      simp [hqs]
    | none =>
      rw [hget] at hlg
      dsimp only at hlg
      unfold ledgerMissing
      rw [hlg, ledgerGet_insert_ne _ _ _ _ hne]
      simp [hqs]

theorem ledgerKeysNodup_sent_request_part (p : PeerId) (i : Nat) (s : ShardId)
    (hash : CryptoHash) (st : PeersState) (timeout now : Timestamp)
    (h : ledgerKeysNodup st.last_part_id_requested) :
    ledgerKeysNodup (sent_request_part p i s hash st timeout now).last_part_id_requested := by
  have hlg := sent_request_part_ledger p i s hash st timeout now
  cases hget : ledgerGet st.last_part_id_requested (p, s) with
  | some pr =>
    rw [hget] at hlg
    dsimp only at hlg
    rw [hlg]
    exact ledgerKeysNodup_insert _ _ _ h
  | none =>
    rw [hget] at hlg
    dsimp only at hlg
    rw [hlg]
    exact ledgerKeysNodup_insert _ _ _ h

/-- The assignments of one tick add `count` pending units for the tick's
shard and nothing elsewhere. -/
theorem ledgerMissing_applyAssignments (now : Timestamp) (s : ShardId)
    (hash : CryptoHash) (timeout : Timestamp) (asg : List (PeerId × Nat))
    (st : PeersState) (q : PeerId) (s' : ShardId) :
    ledgerMissing (applyAssignments now s hash timeout asg st).last_part_id_requested q s'
      = ledgerMissing st.last_part_id_requested q s'
        + (if s' = s then (asg.map Prod.fst).count q else 0) := by
  induction asg generalizing st with
  | nil => simp [applyAssignments]
  | cons a t ih =>
    show ledgerMissing (applyAssignments now s hash timeout t
        (sent_request_part a.1 a.2 s hash st timeout now)).last_part_id_requested q s' = _
    rw [ih (sent_request_part a.1 a.2 s hash st timeout now),
        ledgerMissing_sent_request_part]
    by_cases hq : q = a.1
    · subst hq
      by_cases hs : s' = s
      · simp only [hs, if_pos rfl, List.count_cons, if_true, and_self]
        simp [List.count_cons]
        omega
      · simp [hs]
    · have hq' : ¬ (a.1 = q) := fun hc => hq hc.symm
      by_cases hs : s' = s
      · simp [hq, hq', hs, List.count_cons]
      · simp [hq, hs]

theorem ledgerKeysNodup_applyAssignments (now : Timestamp) (s : ShardId)
    (hash : CryptoHash) (timeout : Timestamp) (asg : List (PeerId × Nat))
    (st : PeersState) (h : ledgerKeysNodup st.last_part_id_requested) :
    ledgerKeysNodup (applyAssignments now s hash timeout asg st).last_part_id_requested := by
  induction asg generalizing st with
  | nil => exact h
  | cons a t ih =>
    unfold applyAssignments
    simp only [List.foldl_cons]
    exact ih _ (ledgerKeysNodup_sent_request_part _ _ _ _ _ _ _ h)

/-- The ledger component of `received_requested_part`: untouched, removed at
the credited key, or decremented at the credited key. -/
theorem received_ledger_cases (i : Nat) (s : ShardId) (hash : CryptoHash)
    (st : PeersState) :
    (received_requested_part_peers i s hash st).last_part_id_requested
        = st.last_part_id_requested ∨
    (∃ target, (st.requested_target.get (i, hash)).1 = some target ∧
      (received_requested_part_peers i s hash st).last_part_id_requested
        = ledgerRemove st.last_part_id_requested (target, s)) ∨
    (∃ target pr, (st.requested_target.get (i, hash)).1 = some target ∧
      ledgerGet st.last_part_id_requested (target, s) = some pr ∧
      (received_requested_part_peers i s hash st).last_part_id_requested
        = ledgerInsert st.last_part_id_requested (target, s)
            { pr with missing_parts := pr.missing_parts - 1 }) := by
  unfold received_requested_part_peers
  rcases hlru : st.requested_target.get (i, hash) with ⟨opt, rt⟩
  dsimp only
  cases opt with
  | none => left; rfl
  | some target =>
    dsimp only
    cases hget : ledgerGet st.last_part_id_requested (target, s) with
    | none =>
      dsimp only
      left; rfl
    | some pr =>
      dsimp only
      by_cases hz : pr.missing_parts - 1 = 0
      · rw [if_pos hz]
        right; left
        exact ⟨target, rfl, rfl⟩
      · rw [if_neg hz]
        right; right
        exact ⟨target, pr, rfl, hget, rfl⟩

/-- `received_requested_part` never increases any ledger cell. -/
theorem ledgerMissing_received_le (i : Nat) (s : ShardId) (hash : CryptoHash)
    (st : PeersState) (q : PeerId) (s' : ShardId) :
    ledgerMissing (received_requested_part_peers i s hash st).last_part_id_requested q s'
      ≤ ledgerMissing st.last_part_id_requested q s' := by
  rcases received_ledger_cases i s hash st with h | ⟨target, -, h⟩ | ⟨target, pr, -, hget, h⟩
  · rw [h]
  · rw [h]
    unfold ledgerMissing
    by_cases hk : (q, s') = (target, s)
    · rw [hk, ledgerGet_remove_eq]
      simp
    · rw [ledgerGet_remove_ne _ _ _ hk]
  · rw [h]
    unfold ledgerMissing
    by_cases hk : (q, s') = (target, s)
    · rw [hk, ledgerGet_insert_eq, hget]
      dsimp only
      omega
    · rw [ledgerGet_insert_ne _ _ _ _ hk]

theorem ledgerKeysNodup_received (i : Nat) (s : ShardId) (hash : CryptoHash)
    (st : PeersState) (h : ledgerKeysNodup st.last_part_id_requested) :
    ledgerKeysNodup (received_requested_part_peers i s hash st).last_part_id_requested := by
  rcases received_ledger_cases i s hash st with h' | ⟨target, -, h'⟩ | ⟨target, pr, -, hget, h'⟩
  · rw [h']; exact h
  · rw [h']
    exact ledgerKeysNodup_filter _ _ h
  · rw [h']
    exact ledgerKeysNodup_insert _ _ _ h

/-- The sweep never increases a ledger cell (and preserves key uniqueness). -/
theorem ledgerMissing_sweep_le (lg : Ledger) (now : Timestamp) (q : PeerId)
    (s' : ShardId) (h : ledgerKeysNodup lg) :
    ledgerMissing (sweepLedger lg now) q s' ≤ ledgerMissing lg q s' := by
  unfold ledgerMissing sweepLedger
  rcases ledgerGet_filter_le lg (fun e => !(e.2.expired now)) (q, s') h with h' | h'
  · rw [h']
    simp
  · rw [h']

/-- The per-`(peer, shard)` bound carried by every reachable `Peers` state:
ledger keys stay duplicate-free and no pending count exceeds
`MAX_STATE_PART_REQUEST`. -/
def LedgerInv (st : PState) : Prop :=
  ledgerKeysNodup st.ps.last_part_id_requested ∧
  ∀ p s, ledgerMissing st.ps.last_part_id_requested p s ≤ MAX_STATE_PART_REQUEST

theorem preach_ledger_inv (timeout : Timestamp) (hash : CryptoHash) (st : PState)
    (h : PReach timeout hash st) : LedgerInv st := by
  induction h with
  | init =>
    constructor
    · simp [initPState, ledgerKeysNodup]
    · intro p s
      simp [initPState, ledgerMissing, ledgerGet]
  | @step s s' hr hstep ih =>
    cases hstep with
    | tick now shard asg hcount hcand hparts =>
      have hnodup0 : ledgerKeysNodup (sweepPS s.ps now).last_part_id_requested :=
        ledgerKeysNodup_filter _ _ ih.1
      constructor
      · exact ledgerKeysNodup_applyAssignments _ _ _ _ _ _ hnodup0
      · intro p sh
        have hchar := ledgerMissing_applyAssignments now shard hash timeout asg
          (sweepPS s.ps now) p sh
        show ledgerMissing (applyAssignments now shard hash timeout asg
          (sweepPS s.ps now)).last_part_id_requested p sh ≤ MAX_STATE_PART_REQUEST
        rw [hchar]
        have hsweep : ledgerMissing (sweepPS s.ps now).last_part_id_requested p sh
            ≤ MAX_STATE_PART_REQUEST := by
          calc ledgerMissing (sweepPS s.ps now).last_part_id_requested p sh
              ≤ ledgerMissing s.ps.last_part_id_requested p sh :=
                ledgerMissing_sweep_le _ _ _ _ ih.1
            _ ≤ MAX_STATE_PART_REQUEST := ih.2 p sh
        by_cases hs : sh = shard
        · subst hs
          by_cases hmem : p ∈ asg.map Prod.fst
          · rcases List.mem_map.mp hmem with ⟨a, ha, hap⟩
            have h0 := hcand a ha
            rw [hap] at h0
            have hz : ledgerMissing (sweepPS s.ps now).last_part_id_requested p sh = 0 := by
              unfold ledgerMissing
              show (match ledgerGet (sweepLedger s.ps.last_part_id_requested now) (p, sh) with
                | some pr => pr.missing_parts
                | none => 0) = 0
              rw [h0]
            rw [if_pos rfl, hz]
            simpa using hcount p hmem
          · have hz : (asg.map Prod.fst).count p = 0 :=
              List.count_eq_zero.mpr hmem
            rw [if_pos rfl, hz]
            simpa using hsweep
        · rw [if_neg hs]
          simpa using hsweep
    | response r hmem =>
      constructor
      · exact ledgerKeysNodup_received _ _ _ _ ih.1
      · intro p sh
        calc ledgerMissing (respNext hash s r).ps.last_part_id_requested p sh
            ≤ ledgerMissing s.ps.last_part_id_requested p sh :=
              ledgerMissing_received_le _ _ _ _ _ _
          _ ≤ MAX_STATE_PART_REQUEST := ih.2 p sh

/-! ### A reachable state with more than `MAX_STATE_PART_REQUEST` outstanding
requests to one peer for one shard

Timeout 100, sync hash 0, peers 1 and 2, shards 1 and 2.  Shard 1 has 50
parts, so the first tick's zip consumes the whole sampler stream: peer 1 gets
parts 0-15, peer 2 gets parts 16-31, and parts 32-49 stay armed for a later
tick.  In the same tick shard 2 assigns its part 0 to peer 2, overwriting the
LRU key `(0, hash)` (which carries no shard id) from peer 1 to peer 2.  Peer 2
answers its shard-1 parts 17-31; then peer 1's answer for shard-1 part 0
arrives, `received_requested_part` looks up `(0, hash)`, finds peer 2, and
decrements — then removes — peer 2's ledger entry for shard 1, even though
peer 2's request for part 16 is still unanswered.  At time 50 (well inside
every deadline) `select_peers` re-admits peer 2 for shard 1 and the sampler
hands it 16 fresh parts: 17 unanswered, unexpired requests. -/

def c1Asg1 : List (PeerId × Nat) :=
  (List.range 16).map (fun i => (1, i)) ++ (List.range 16).map (fun i => (2, 16 + i))

def c1Asg2 : List (PeerId × Nat) := [(2, 0)]

def c1Asg3 : List (PeerId × Nat) := (List.range 16).map (fun i => (2, 32 + i))

def c1Resps : List GhostReq :=
  ((List.range 15).map
    (fun j => { peer := 2, shard := 1, part := 17 + j, deadline := 100 }))
    ++ [{ peer := 1, shard := 1, part := 0, deadline := 100 }]

def c1S1 : PState := tickNext 100 0 initPState 0 1 c1Asg1
def c1S2 : PState := tickNext 100 0 c1S1 0 2 c1Asg2
def c1S3 : PState := c1Resps.foldl (respNext 0) c1S2
def c1S4 : PState := tickNext 100 0 c1S3 50 1 c1Asg3

/-- Decidable check that a list of responses can be played in order: each one
answers a request that is outstanding when it arrives. -/
def respOk (hash : CryptoHash) : PState → List GhostReq → Bool
  | _, [] => true
  | st, r :: rs => (decide (r ∈ st.outstanding)) && respOk hash (respNext hash st r) rs

theorem preach_foldl_responses (timeout : Timestamp) (hash : CryptoHash)
    (rs : List GhostReq) :
    ∀ st, PReach timeout hash st → respOk hash st rs = true →
      PReach timeout hash (rs.foldl (respNext hash) st) := by
  induction rs with
  | nil =>
    intro st h _
    exact h
  | cons r rs ih =>
    intro st h hok
    simp only [respOk, Bool.and_eq_true, decide_eq_true_eq] at hok
    exact ih _ (h.step (PStep.response st r hok.1)) hok.2

theorem c1_reach : PReach 100 0 c1S4 := by
  have h0 : PReach 100 0 initPState := PReach.init
  have h1 : PReach 100 0 c1S1 :=
    h0.step (PStep.tick initPState 0 1 c1Asg1 (by decide) (by decide) (by decide))
  have h2 : PReach 100 0 c1S2 :=
    h1.step (PStep.tick c1S1 0 2 c1Asg2 (by decide) (by decide) (by decide))
  have h3 : PReach 100 0 c1S3 :=
    preach_foldl_responses 100 0 c1Resps c1S2 h2 (by decide)
  exact h3.step (PStep.tick c1S3 50 1 c1Asg3 (by decide) (by decide) (by decide))

/-! ### Characterising one tick of the orchestrator -/

theorem mapGet_mapSet_self (m : SyncMap) (s : ShardId) (v : ShardSyncDownload) :
    mapGet (mapSet m s v) s = some v := by
  induction m with
  | nil => simp [mapSet, mapGet]
  | cons e t ih =>
    by_cases h : e.1 = s
    · simp [mapSet, h, mapGet]
    · simp [mapSet, h, mapGet, ih]

theorem mapGet_mapSet_ne (m : SyncMap) (s s' : ShardId) (v : ShardSyncDownload)
    (h : s' ≠ s) : mapGet (mapSet m s v) s' = mapGet m s' := by
  have hss : ¬ (s = s') := fun hc => h hc.symm
  induction m with
  | nil =>
    show (if s = s' then some v else none) = none
    rw [if_neg hss]
  | cons e t ih =>
    show mapGet (if e.1 = s then (s, v) :: t else e :: mapSet t s v) s' = mapGet (e :: t) s'
    by_cases he : e.1 = s
    · rw [if_pos he]
      show (if s = s' then some v else mapGet t s') = if e.1 = s' then some e.2 else mapGet t s'
      have he' : ¬ (e.1 = s') := by rw [he]; exact hss
      rw [if_neg hss, if_neg he']
    · rw [if_neg he]
      show (if e.1 = s' then some e.2 else mapGet (mapSet t s v) s')
        = if e.1 = s' then some e.2 else mapGet t s'
      rw [ih]

theorem sync_block_status_have (b : Bool) (l : Option Timestamp) (t n : Timestamp) :
    (sync_block_status b l t n).2.1 = b := by
  unfold sync_block_status
  cases b with
  | false =>
    cases l with
    | none => rfl
    | some lt =>
      by_cases h : (n - lt ≥ t)
      · simp [h]
      · simp [h]
  | true => rfl

theorem request_shard_header_status_eq (shard_id : ShardId) (sync_hash : CryptoHash)
    (pt : List PeerId) (ssd : ShardSyncDownload) (draw : Nat) :
    (request_shard_header shard_id sync_hash pt ssd draw).1.status = ssd.status := by
  unfold request_shard_header
  cases ssd.downloads with
  | nil => rfl
  | cons d rest =>
    dsimp only
    by_cases h : d.run_me
    · simp [h]
    · simp [h]

theorem request_shard_parts_peers_status_eq (shard_id : ShardId)
    (sync_hash : CryptoHash) (pt : List PeerId) (ssd : ShardSyncDownload)
    (st : PeersState) (timeout now : Timestamp) (so : Nat → Nat) :
    (request_shard_parts_peers shard_id sync_hash pt ssd st timeout now so).1.status
      = ssd.status := by
  unfold request_shard_parts_peers
  rcases hA : assignParts 0 ssd.downloads
      ((SamplerLimited.new pt MAX_STATE_PART_REQUEST).run so 0) with ⟨asg, ds⟩
  rfl

theorem request_shard_parts_external_status_eq (shard_id : ShardId)
    (ssd : ShardSyncDownload) (permits : Nat) (ctx : ChainCtx) :
    (request_shard_parts_external shard_id ssd permits ctx).1.status = ssd.status := by
  unfold request_shard_parts_external
  cases ctx.getStateHeader shard_id with
  | error e => rfl
  | ok n => dsimp only

/-- Dispatch never changes the shard's phase. -/
theorem request_shard_status_eq (shard_id : ShardId) (sync_hash : CryptoHash)
    (ssd : ShardSyncDownload) (peers : List PeerId) (inner : StateSyncInner)
    (ctx : ChainCtx) (timeout now : Timestamp) (hd : Nat) (so : Nat → Nat) :
    (request_shard shard_id sync_hash ssd peers inner ctx timeout now hd so).1.status
      = ssd.status := by
  unfold request_shard
  dsimp only
  by_cases he : (select_peers peers shard_id inner now).1.isEmpty
  · rw [if_pos he]
  · rw [if_neg he]
    cases hst : ssd.status with
    | StateDownloadHeader =>
      dsimp only
      rw [request_shard_header_status_eq, hst]
    | StateDownloadParts =>
      dsimp only
      cases hsel : (select_peers peers shard_id inner now).2 with
      | peers st =>
        dsimp only
        rw [request_shard_parts_peers_status_eq, hst]
      | partsFromExternal cid permits =>
        dsimp only
        rw [request_shard_parts_external_status_eq, hst]
    | StateDownloadScheduling => dsimp only; exact hst
    | StateDownloadApplying => dsimp only; exact hst
    | StateDownloadComplete => dsimp only; exact hst
    | StateSplitScheduling => dsimp only; exact hst
    | StateSplitApplying => dsimp only; exact hst
    | StateSyncDone => dsimp only; exact hst

/-- The per-shard step believes a shard done exactly when its resulting phase
is `StateSyncDone`. -/
theorem stepShardStatus_done_iff (ctx : ChainCtx) (sync_hash : CryptoHash)
    (timeout now : Timestamp) (split_states : Bool)
    (ar sr : List (ShardId × Except Unit Unit)) (shard_id : ShardId)
    (ssd0 : ShardSyncDownload) :
    (stepShardStatus ctx sync_hash timeout now split_states ar sr shard_id ssd0).shardDone = true
      ↔ (stepShardStatus ctx sync_hash timeout now split_states ar sr shard_id ssd0).ssd.status
          = .StateSyncDone := by
  unfold stepShardStatus
  cases hst : ssd0.status with
  | StateDownloadHeader =>
    dsimp only
    unfold sync_shards_download_header_status
    cases ssd0.downloads with
    | nil => simp [hst]
    | cons d rest =>
      dsimp only
      by_cases hdone : d.done
      · simp only [hdone, if_pos]
        cases ctx.getStateHeader shard_id with
        | ok n => simp [ShardSyncDownload.new_download_state_parts]
        | error e => simp [hst]
      · simp only [hdone, Bool.false_eq_true, if_neg, if_false]
        simp [hst]
  | StateDownloadParts =>
    dsimp only
    unfold sync_shards_download_parts_status
    dsimp only
    by_cases hp : (ssd0.downloads.map (part_status_update timeout now)).all (·.done)
    · simp [hp]
    · simp [hp, hst]
  | StateDownloadScheduling =>
    dsimp only
    unfold sync_shards_download_scheduling_status
    cases ctx.getStateHeader shard_id with
    | error e => simp [hst]
    | ok n =>
      dsimp only
      by_cases hs : ctx.scheduleApplyOk shard_id
      · simp [hs]
      · simp [hs, ShardSyncDownload.new_download_state_header]
  | StateDownloadApplying =>
    dsimp only
    unfold sync_shards_download_applying_status
    cases assocRemove ar shard_id with
    | none => simp [hst]
    | some v =>
      dsimp only
      by_cases hf : ctx.setStateFinalizeOk shard_id v.1
      · simp [hf]
      · simp only [hf, Bool.false_eq_true, if_neg, if_false]
        cases ctx.getStateHeader shard_id with
        | error e => simp [ShardSyncDownload.new_download_state_header]
        | ok n => simp [ShardSyncDownload.new_download_state_header]
  | StateDownloadComplete =>
    dsimp only
    unfold sync_shards_download_complete_status
    by_cases hsp : split_states
    · simp [hsp]
    · simp [hsp]
  | StateSplitScheduling =>
    dsimp only
    unfold sync_shards_state_split_scheduling_status
    by_cases hs : ctx.splitPreOk shard_id
    · simp [hs]
    · simp [hs, hst]
  | StateSplitApplying =>
    dsimp only
    unfold sync_shards_state_split_applying_status
    cases assocRemove sr shard_id with
    | none => simp [hst]
    | some v =>
      dsimp only
      cases v.1 with
      | error e => simp [hst]
      | ok u =>
        dsimp only
        by_cases hpo : ctx.splitPostOk shard_id
        · simp [hpo]
        · simp [hpo, hst]
  | StateSyncDone =>
    dsimp only
    simp [hst]

theorem processOneShard_err_stable (ctx : ChainCtx) (hash : CryptoHash)
    (peers : List PeerId) (now : Timestamp) (split : Bool)
    (oracle : Nat → Nat → Nat) (ls : LoopState) (shard_id : ShardId)
    (h : ls.err ≠ none) :
    processOneShard ctx hash peers now split oracle ls shard_id = ls := by
  unfold processOneShard
  cases he : ls.err with
  | some e => rfl
  | none => exact absurd he h

theorem foldl_processOneShard_err_stable (ctx : ChainCtx) (hash : CryptoHash)
    (peers : List PeerId) (now : Timestamp) (split : Bool)
    (oracle : Nat → Nat → Nat) (l : List ShardId) :
    ∀ ls : LoopState, ls.err ≠ none →
      l.foldl (processOneShard ctx hash peers now split oracle) ls = ls := by
  induction l with
  | nil => intro ls _; rfl
  | cons sh tl ih =>
    intro ls h
    show tl.foldl (processOneShard ctx hash peers now split oracle)
      (processOneShard ctx hash peers now split oracle ls sh) = ls
    rw [processOneShard_err_stable ctx hash peers now split oracle ls sh h]
    exact ih ls h

/-- One loop iteration touches only its own shard's record, and (absent an
abort) marks `all_done` exactly when that record ends in `StateSyncDone`. -/
theorem processOneShard_char (ctx : ChainCtx) (hash : CryptoHash)
    (peers : List PeerId) (now : Timestamp) (split : Bool)
    (oracle : Nat → Nat → Nat) (ls : LoopState) (shard_id : ShardId)
    (h : ls.err = none) :
    (∀ s', s' ≠ shard_id →
        mapGet (processOneShard ctx hash peers now split oracle ls shard_id).map s'
          = mapGet ls.map s') ∧
    ((processOneShard ctx hash peers now split oracle ls shard_id).err = none →
      ∃ ssd', mapGet (processOneShard ctx hash peers now split oracle ls shard_id).map shard_id
          = some ssd' ∧
        ((processOneShard ctx hash peers now split oracle ls shard_id).allDone = true
          ↔ (ls.allDone = true ∧ ssd'.status = .StateSyncDone))) := by
  unfold processOneShard
  rw [h]
  dsimp only
  set ssd0 := (mapGet ls.map shard_id).getD (ShardSyncDownload.new_download_state_header now)
    with hssd0
  set st := stepShardStatus ctx hash ls.ss.timeout now split
    ls.ss.state_parts_apply_results ls.ss.split_state_roots shard_id ssd0 with hstdef
  have hdone := stepShardStatus_done_iff ctx hash ls.ss.timeout now split
    ls.ss.state_parts_apply_results ls.ss.split_state_roots shard_id ssd0
  rw [← hstdef] at hdone
  cases hster : st.err with
  | some e =>
    dsimp only
    constructor
    · intro s' hs'
      exact mapGet_mapSet_ne ls.map shard_id s' st.ssd hs'
    · intro hcon
      exact absurd hcon (by simp)
  | none =>
    dsimp only
    by_cases hrf : st.runFlag
    · rw [if_pos hrf]
      set r := request_shard shard_id hash st.ssd peers
        { ls.ss with
          state_parts_apply_results := st.apply_results,
          split_state_roots := st.split_roots }.inner ctx
        { ls.ss with
          state_parts_apply_results := st.apply_results,
          split_state_roots := st.split_roots }.timeout now
        (oracle { ls.ss with
          state_parts_apply_results := st.apply_results,
          split_state_roots := st.split_roots }.randCtr 0)
        (fun i => oracle { ls.ss with
          state_parts_apply_results := st.apply_results,
          split_state_roots := st.split_roots }.randCtr (i + 1)) with hrdef
      constructor
      · intro s' hs'
        exact mapGet_mapSet_ne ls.map shard_id s' r.1 hs'
      · intro _
        refine ⟨r.1, mapGet_mapSet_self ls.map shard_id r.1, ?_⟩
        have hreq : r.1.status = st.ssd.status := by
          rw [hrdef]
          exact request_shard_status_eq ..
        rw [Bool.and_eq_true]
        constructor
        · rintro ⟨h1, h2⟩
          exact ⟨h1, by rw [hreq]; exact hdone.mp h2⟩
        · rintro ⟨h1, h2⟩
          exact ⟨h1, hdone.mpr (by rw [← hreq]; exact h2)⟩
    · rw [if_neg hrf]
      constructor
      · intro s' hs'
        exact mapGet_mapSet_ne ls.map shard_id s' st.ssd hs'
      · intro _
        refine ⟨st.ssd, mapGet_mapSet_self ls.map shard_id st.ssd, ?_⟩
        rw [Bool.and_eq_true]
        constructor
        · rintro ⟨h1, h2⟩
          exact ⟨h1, hdone.mp h2⟩
        · rintro ⟨h1, h2⟩
          exact ⟨h1, hdone.mpr h2⟩

/-- The whole shard loop: untracked shards are untouched, and (absent an
abort) `all_done` holds exactly when every tracked shard's record ends in
`StateSyncDone`. -/
theorem foldl_processOneShard_char (ctx : ChainCtx) (hash : CryptoHash)
    (peers : List PeerId) (now : Timestamp) (split : Bool)
    (oracle : Nat → Nat → Nat) :
    ∀ (tracking : List ShardId), tracking.Nodup → ∀ ls : LoopState, ls.err = none →
      (∀ s', s' ∉ tracking →
        mapGet (tracking.foldl (processOneShard ctx hash peers now split oracle) ls).map s'
          = mapGet ls.map s') ∧
      ((tracking.foldl (processOneShard ctx hash peers now split oracle) ls).err = none →
        ((tracking.foldl (processOneShard ctx hash peers now split oracle) ls).allDone = true
          ↔ (ls.allDone = true ∧ ∀ s ∈ tracking,
              (mapGet (tracking.foldl (processOneShard ctx hash peers now split oracle)
                  ls).map s).map ShardSyncDownload.status = some .StateSyncDone))) := by
  intro tracking
  induction tracking with
  | nil =>
    intro _ ls _
    constructor
    · intro s' _; rfl
    · intro _
      simp
  | cons sh tl ih =>
    intro hnd ls h
    rw [List.nodup_cons] at hnd
    rw [List.foldl_cons]
    set ls1 := processOneShard ctx hash peers now split oracle ls sh with hls1
    have hchar := processOneShard_char ctx hash peers now split oracle ls sh h
    rw [← hls1] at hchar
    cases herr1 : ls1.err with
    | some e =>
      have hstable := foldl_processOneShard_err_stable ctx hash peers now split oracle tl ls1
        (by rw [herr1]; simp)
      constructor
      · intro s' hs'
        show mapGet (tl.foldl (processOneShard ctx hash peers now split oracle) ls1).map s' = _
        rw [hstable]
        exact hchar.1 s' (fun hc => hs' (by rw [hc]; exact List.mem_cons_self sh tl))
      · intro hcon
        have : (tl.foldl (processOneShard ctx hash peers now split oracle) ls1).err = none := hcon
        rw [hstable, herr1] at this
        exact absurd this (by simp)
    | none =>
      obtain ⟨hmaps, hall⟩ := ih hnd.2 ls1 herr1
      obtain ⟨ssd', hget, hiff⟩ := hchar.2 herr1
      constructor
      · intro s' hs'
        have h1 : s' ∉ tl := fun hc => hs' (List.mem_cons_of_mem _ hc)
        have h2 : s' ≠ sh := fun hc => hs' (by rw [hc]; exact List.mem_cons_self sh tl)
        show mapGet (tl.foldl (processOneShard ctx hash peers now split oracle) ls1).map s' = _
        rw [hmaps s' h1]
        exact hchar.1 s' h2
      · intro herrf
        have hiff2 := hall herrf
        show (tl.foldl (processOneShard ctx hash peers now split oracle) ls1).allDone = true ↔ _
        rw [hiff2, hiff]
        have hsh : mapGet (tl.foldl (processOneShard ctx hash peers now split oracle)
            ls1).map sh = some ssd' := by
          rw [hmaps sh hnd.1, hget]
        constructor
        · rintro ⟨⟨h1, h2⟩, h3⟩
          refine ⟨h1, ?_⟩
          intro s hs
          rcases List.mem_cons.mp hs with rfl | hs'
          · rw [hsh]
            simp [h2]
          · exact h3 s hs'
        · rintro ⟨h1, h2⟩
          refine ⟨⟨h1, ?_⟩, ?_⟩
          · have hx := h2 sh (List.mem_cons_self sh tl)
            rw [hsh] at hx
            simpa using hx
          · intro s hs
            exact h2 s (List.mem_cons_of_mem _ hs)

/-- Response ingestion never changes a shard's phase. -/
theorem process_downloaded_parts_status (hash : CryptoHash)
    (msgs : List StateSyncGetPartResult) :
    ∀ m : SyncMap, ∀ s,
      (mapGet (process_downloaded_parts hash msgs m) s).map ShardSyncDownload.status
        = (mapGet m s).map ShardSyncDownload.status := by
  induction msgs with
  | nil => intro m s; rfl
  | cons msg rest ih =>
    intro m s
    unfold process_downloaded_parts
    rw [List.foldl_cons]
    by_cases h1 : msg.sync_hash ≠ hash
    · rw [if_pos h1]
      exact ih m s
    · rw [if_neg h1]
      cases hget : mapGet m msg.shard_id with
      | none => exact ih m s
      | some ssd =>
        dsimp only
        by_cases h2 : ssd.status ≠ ShardSyncStatus.StateDownloadParts
        · rw [if_pos h2]
          exact ih m s
        · rw [if_neg h2]
          cases hd : ssd.downloads.get? msg.part_idx with
          | none => exact ih m s
          | some d =>
            dsimp only
            have hrest := ih (mapSet m msg.shard_id
              { downloads := ssd.downloads.set msg.part_idx
                  (process_part_response msg.part_idx msg.shard_id hash d msg.part_result),
                status := ssd.status }) s
            show (mapGet (process_downloaded_parts hash rest _) s).map _ = _
            rw [hrest]
            by_cases hs : s = msg.shard_id
            · subst hs
              rw [mapGet_mapSet_self, hget]
              rfl
            · rw [mapGet_mapSet_ne _ _ _ _ hs]

/-- `run` with a layout mismatch and a nonempty tracking set aborts with the
panic before the shard loop runs: the map has only been through response
ingestion, no effects were emitted. -/
theorem run_panic_eq (ctx : ChainCtx) (hash : CryptoHash) (map : SyncMap)
    (ss : SSState) (peers : List PeerId) (tracking : List ShardId)
    (msgs : List StateSyncGetPartResult) (now : Timestamp)
    (oracle : Nat → Nat → Nat) (hne : tracking ≠ [])
    (hlay : ctx.prevLayout ≠ ctx.syncLayout) :
    run ctx hash map ss peers tracking msgs now oracle
      = (.error (.panic "cannot sync to the first epoch after sharding upgrade. Please wait for the next epoch or find peers that are more up to date"),
         process_downloaded_parts hash msgs map,
         { ss with last_time_block_requested :=
             (sync_block_status ctx.haveBlock ss.last_time_block_requested ss.timeout now).2.2 },
         []) := by
  unfold run
  dsimp only
  rw [if_neg (by simpa using hne)]
  unfold sync_shards_status
  rw [if_pos hlay]

/-- `run` with an empty tracking set: the result depends only on the
sync-block gate, and nothing else changes. -/
theorem run_empty_tracking (ctx : ChainCtx) (hash : CryptoHash) (map : SyncMap)
    (ss : SSState) (peers : List PeerId) (msgs : List StateSyncGetPartResult)
    (now : Timestamp) (oracle : Nat → Nat → Nat) :
    run ctx hash map ss peers [] msgs now oracle
      = ((if ctx.haveBlock then .ok .completed
          else if (sync_block_status ctx.haveBlock ss.last_time_block_requested
              ss.timeout now).1
          then .ok .requestBlock else .ok .inProgress),
         map,
         { ss with last_time_block_requested :=
             (sync_block_status ctx.haveBlock ss.last_time_block_requested
               ss.timeout now).2.2 },
         []) := by
  unfold run
  dsimp only
  simp only [List.isEmpty_nil]
  rw [if_pos trivial]
  have hhave := sync_block_status_have ctx.haveBlock ss.last_time_block_requested
    ss.timeout now
  cases hb : ctx.haveBlock with
  | true =>
    rw [hb] at hhave
    rw [hhave]
    rfl
  | false =>
    rw [hb] at hhave
    rw [hhave]
    rfl

/-- When `run` returns a result (no abort), that result is `Completed`
exactly when the sync block is present and every tracked shard's record ends
in `StateSyncDone`. -/
theorem run_completed_iff (ctx : ChainCtx) (hash : CryptoHash) (map : SyncMap)
    (ss : SSState) (peers : List PeerId) (tracking : List ShardId)
    (msgs : List StateSyncGetPartResult) (now : Timestamp)
    (oracle : Nat → Nat → Nat) (res : StateSyncResult) (map' : SyncMap)
    (ss' : SSState) (effs : List Effect) (hnd : tracking.Nodup)
    (hrun : run ctx hash map ss peers tracking msgs now oracle
      = (.ok res, map', ss', effs)) :
    res = .completed ↔ (ctx.haveBlock = true ∧ ∀ s ∈ tracking,
      (mapGet map' s).map ShardSyncDownload.status = some .StateSyncDone) := by
  unfold run at hrun
  dsimp only at hrun
  have hhave := sync_block_status_have ctx.haveBlock ss.last_time_block_requested
    ss.timeout now
  by_cases hemp : tracking.isEmpty
  · rw [if_pos hemp] at hrun
    have htr : tracking = [] := by
      cases tracking with
      | nil => rfl
      | cons a l => simp at hemp
    subst htr
    cases hb : ctx.haveBlock with
    | true =>
      rw [hhave, hb] at hrun
      simp only [Bool.not_true, Bool.false_eq_true, if_false, Prod.mk.injEq] at hrun
      obtain ⟨h1, -, -, -⟩ := hrun
      have hres : res = .completed := by
        cases h1
        rfl
      simp [hres]
    | false =>
      rw [hhave, hb] at hrun
      simp only [Bool.not_false, if_true, Prod.mk.injEq] at hrun
      obtain ⟨h1, -, -, -⟩ := hrun
      constructor
      · intro hres
        subst hres
        by_cases hr : (sync_block_status false ss.last_time_block_requested
            ss.timeout now).1
        · rw [if_pos hr] at h1
          exact absurd h1.symm (by simp)
        · rw [if_neg hr] at h1
          exact absurd h1.symm (by simp)
      · rintro ⟨hcon, -⟩
        exact absurd hcon (by simp [hb])
  · rw [if_neg hemp] at hrun
    unfold sync_shards_status at hrun
    by_cases hlay : ctx.prevLayout ≠ ctx.syncLayout
    · rw [if_pos hlay] at hrun
      dsimp only at hrun
      exact absurd hrun.symm (by simp [Prod.ext_iff])
    · rw [if_neg hlay] at hrun
      set ls0 : LoopState :=
        { map := process_downloaded_parts hash msgs map,
          ss := { ss with
            last_time_block_requested :=
              (sync_block_status ctx.haveBlock ss.last_time_block_requested
                ss.timeout now).2.2 },
          effects := [],
          allDone := true,
          err := none } with hls0
      set lsf := tracking.foldl
        (processOneShard ctx hash peers now ctx.willChange oracle) ls0 with hlsf
      have hfold := foldl_processOneShard_char ctx hash peers now ctx.willChange oracle
        tracking hnd ls0 rfl
      rw [← hlsf] at hfold
      cases hler : lsf.err with
      | some e =>
        rw [hler] at hrun
        exact absurd hrun.symm (by simp [Prod.ext_iff])
      | none =>
        rw [hler] at hrun
        have hiff := (hfold.2) hler
        by_cases hc : ((sync_block_status ctx.haveBlock ss.last_time_block_requested
            ss.timeout now).2.1 && lsf.allDone)
        · rw [if_pos hc] at hrun
          simp only [Prod.mk.injEq] at hrun
          obtain ⟨h1, h2, -, -⟩ := hrun
          have hres : res = .completed := by
            cases h1
            rfl
          subst hres
          rw [Bool.and_eq_true, hhave] at hc
          simp only [true_iff]
          refine ⟨hc.1, ?_⟩
          subst h2
          intro s hs
          simp only [true_and] at hiff
          exact (hiff.mp hc.2) s hs
        · rw [if_neg hc] at hrun
          have hresne : res ≠ .completed := by
            by_cases hr : (sync_block_status ctx.haveBlock ss.last_time_block_requested
                ss.timeout now).1
            · rw [if_pos hr] at hrun
              simp only [Prod.mk.injEq] at hrun
              obtain ⟨h1, -, -, -⟩ := hrun
              intro hcon
              subst hcon
              cases h1
            · rw [if_neg hr] at hrun
              simp only [Prod.mk.injEq] at hrun
              obtain ⟨h1, -, -, -⟩ := hrun
              intro hcon
              subst hcon
              cases h1
          constructor
          · intro hres
            exact absurd hres hresne
          · rintro ⟨hb, hall⟩
            exfalso
            apply hc
            rw [Bool.and_eq_true, hhave]
            refine ⟨hb, ?_⟩
            simp only [true_and] at hiff
            apply hiff.mpr
            intro s hs
            have hmapeq : map' = lsf.map := by
              by_cases hr : (sync_block_status ctx.haveBlock ss.last_time_block_requested
                  ss.timeout now).1
              · rw [if_pos hr] at hrun
                simp only [Prod.mk.injEq] at hrun
                exact hrun.2.1.symm
              · rw [if_neg hr] at hrun
                simp only [Prod.mk.injEq] at hrun
                exact hrun.2.1.symm
            rw [← hmapeq]
            exact hall s hs

/-! ### The LRU key `(part_id, sync_hash)` and its missing shard id
(source lines 479-505, 1197-1214; the source's own FIXME at line 1206) -/

/-- `put` does not change the cache's capacity. -/
theorem lru_put_cap (c : LruCache) (k : Nat × CryptoHash) (v : PeerId) :
    (c.put k v).cap = c.cap := rfl

/-- With any room at all, a `put` makes its key resolve to its value. -/
theorem lruGet_put_fst (c : LruCache) (k : Nat × CryptoHash) (v : PeerId)
    (hcap : 1 ≤ c.cap) : ((c.put k v).get k).1 = some v := by
  unfold LruCache.put LruCache.get
  obtain ⟨m, hm⟩ : ∃ m, c.cap = m + 1 := ⟨c.cap - 1, by omega⟩
  rw [hm]
  dsimp only
  rw [List.take_succ_cons]
  rw [List.find?_cons_of_pos _ (by simp)]

/-- `sent_request_part` leaves every ledger cell other than `(peer, shard)`
unchanged. -/
theorem sent_ledger_other (p : PeerId) (i : Nat) (s : ShardId) (hash : CryptoHash)
    (st : PeersState) (timeout now : Timestamp) (q : PeerId) (s2 : ShardId)
    (hne : (q, s2) ≠ (p, s)) :
    ledgerGet (sent_request_part p i s hash st timeout now).last_part_id_requested (q, s2)
      = ledgerGet st.last_part_id_requested (q, s2) := by
  rw [sent_request_part_ledger]
  cases ledgerGet st.last_part_id_requested (p, s) with
  | none => exact ledgerGet_insert_ne _ _ _ _ hne
  | some pr => exact ledgerGet_insert_ne _ _ _ _ hne

/-- After `sent_request_part`, the ledger holds an entry for `(peer, shard)`. -/
theorem sent_ledger_self_isSome (p : PeerId) (i : Nat) (s : ShardId)
    (hash : CryptoHash) (st : PeersState) (timeout now : Timestamp) :
    (ledgerGet (sent_request_part p i s hash st timeout now).last_part_id_requested
      (p, s)).isSome = true := by
  rw [sent_request_part_ledger]
  cases ledgerGet st.last_part_id_requested (p, s) with
  | none => rw [ledgerGet_insert_eq]; rfl
  | some pr => rw [ledgerGet_insert_eq]; rfl

/-- When the LRU resolves `(part_id, sync_hash)` to `target`, a response
touches only the ledger cell `(target, shard)`. -/
theorem received_ledger_untouched (i : Nat) (s : ShardId) (hash : CryptoHash)
    (st : PeersState) (q : PeerId) (s2 : ShardId) (target : PeerId)
    (hget : (st.requested_target.get (i, hash)).1 = some target)
    (hne : (q, s2) ≠ (target, s)) :
    ledgerGet (received_requested_part_peers i s hash st).last_part_id_requested (q, s2)
      = ledgerGet st.last_part_id_requested (q, s2) := by
  rcases received_ledger_cases i s hash st with h | ⟨t2, ht2, h⟩ | ⟨t2, pr, ht2, hget2, h⟩
  · rw [h]
  · rw [hget] at ht2
    cases ht2
    rw [h]
    exact ledgerGet_remove_ne _ _ _ hne
  · rw [hget] at ht2
    cases ht2
    rw [h]
    exact ledgerGet_insert_ne _ _ _ _ hne

/-! ### Concrete inputs for the claims -/

/-- A chain context in which every collaborator call succeeds, the block is
present and the shard layout does not change. -/
def okCtx : ChainCtx :=
  { haveBlock := true, prevLayout := 0, syncLayout := 0, willChange := false,
    getStateHeader := fun _ => .ok 2,
    scheduleApplyOk := fun _ => true,
    setStateFinalizeOk := fun _ _ => true,
    clearPartsOk := fun _ => true,
    splitPreOk := fun _ => true,
    splitPostOk := fun _ => true,
    setStatePartOk := fun _ _ => true,
    setStateHeaderOk := fun _ => true }

/-- A fresh `StateSync` state in `Peers` mode with timeout 10. -/
def emptySS : SSState :=
  { inner := StateSyncInner.newPeers, last_time_block_requested := none,
    timeout := 10, state_parts_apply_results := [], split_state_roots := [],
    randCtr := 0 }

/-! ### The intended per-artifact flag discipline -/

/-- The flag discipline the spec ascribes to a `DownloadStatus` record:
`done` excludes `error`, and an armed artifact is not done. -/
def DownloadInv (d : DownloadStatus) : Prop :=
  (d.done = true → d.error = false) ∧ (d.run_me = true → d.done = false)

/-- Two queued results for the same part slot in one tick: a storage failure
followed by a success. -/
def c4Msgs : List StateSyncGetPartResult :=
  [ { sync_hash := 0, shard_id := 0, part_idx := 0, part_result := .error "storage" },
    { sync_hash := 0, shard_id := 0, part_idx := 0, part_result := .ok 0 } ]

/-- One tracked shard in the parts phase with two artifacts. -/
def c4Map : SyncMap :=
  [(0, ShardSyncDownload.new_download_state_parts 0 2)]

/-- A shard record in the parts phase with a single part slot. -/
def c5Ssd : ShardSyncDownload := ShardSyncDownload.new_download_state_parts 0 1

/-- A part response carrying the out-of-range index 5. -/
def c5Resp : ShardStateSyncResponse := { header? := none, part? := some (5, ()) }

/-- A `Peers` state with one pending ledger entry for peer 2 on shard 3 and an
LRU binding of part 5 to peer 2. -/
def c5Inner : StateSyncInner :=
  .peers { last_part_id_requested := [((2, 3), { missing_parts := 1, wait_until := 100 })],
           requested_target := { cap := MAX_PENDING_PART, entries := [((5, 0), 2)] } }

/-- A chain context whose shard layouts differ between the prev and sync
epochs. -/
def c8Ctx : ChainCtx := { okCtx with prevLayout := 0, syncLayout := 1 }

/-- One tracked shard waiting on its split result. -/
def c8Map : SyncMap := [(7, ⟨[], .StateSplitApplying⟩)]

/-- A state whose split result for shard 7 is an error. -/
def c8SS : SSState := { emptySS with split_state_roots := [(7, .error ())] }

/-- A `Peers` state with one ledger entry that expires at time 10. -/
def c9Inner : StateSyncInner :=
  .peers { last_part_id_requested := [((2, 3), { missing_parts := 1, wait_until := 10 })],
           requested_target := { cap := MAX_PENDING_PART, entries := [] } }

/-- A shard record in the parts phase with one armed part slot. -/
def c9Ssd : ShardSyncDownload := ShardSyncDownload.new_download_state_parts 0 1

/-! ### What each transition may emit (for the destructive-recovery claim) -/

theorem request_shard_header_effects (s : ShardId) (hash : CryptoHash)
    (pt : List PeerId) (ssd : ShardSyncDownload) (draw : Nat) :
    ∀ e ∈ (request_shard_header s hash pt ssd draw).2.1,
      ∃ p, e = Effect.sendHeaderRequest s hash p := by
  intro e he
  unfold request_shard_header at he
  cases hds : ssd.downloads with
  | nil => rw [hds] at he; simp at he
  | cons d rest =>
    rw [hds] at he
    dsimp only at he
    by_cases hr : d.run_me <;> simp [hr] at he
    exact ⟨_, he⟩

theorem request_shard_parts_peers_effects (s : ShardId) (hash : CryptoHash)
    (pt : List PeerId) (ssd : ShardSyncDownload) (st : PeersState)
    (timeout now : Timestamp) (so : Nat → Nat) :
    ∀ e ∈ (request_shard_parts_peers s hash pt ssd st timeout now so).2.2,
      ∃ i p, e = Effect.sendPartRequest s hash i p := by
  intro e he
  unfold request_shard_parts_peers at he
  rcases List.mem_map.mp he with ⟨a, -, rfl⟩
  exact ⟨a.1, a.2, rfl⟩

theorem dispatchExternal_effects (s : ShardId) (idx : Nat)
    (ds : List DownloadStatus) (permits : Nat) :
    ∀ e ∈ (dispatchExternal s idx ds permits).2.2,
      ∃ i, e = Effect.spawnExternalFetch s i := by
  induction ds generalizing idx permits with
  | nil =>
    intro e he
    simp [dispatchExternal] at he
  | cons d rest ih =>
    intro e he
    unfold dispatchExternal at he
    by_cases hr : d.run_me
    · rw [if_pos hr] at he
      by_cases hp : permits = 0
      · rw [if_pos hp] at he
        simp at he
      · rw [if_neg hp] at he
        by_cases hp1 : permits - 1 = 0
        · rw [if_pos hp1] at he
          rcases List.mem_singleton.mp he with rfl
          exact ⟨idx, rfl⟩
        · rw [if_neg hp1] at he
          dsimp only at he
          rcases List.mem_cons.mp he with rfl | he2
          · exact ⟨idx, rfl⟩
          · exact ih (idx + 1) (permits - 1) e he2
    · rw [if_neg hr] at he
      dsimp only at he
      exact ih (idx + 1) permits e he

theorem request_shard_parts_external_effects (s : ShardId)
    (ssd : ShardSyncDownload) (permits : Nat) (ctx : ChainCtx) :
    ∀ e ∈ (request_shard_parts_external s ssd permits ctx).2.2.1,
      ∃ i, e = Effect.spawnExternalFetch s i := by
  intro e he
  unfold request_shard_parts_external at he
  cases hg : ctx.getStateHeader s with
  | error u =>
    rw [hg] at he
    simp at he
  | ok m =>
    rw [hg] at he
    dsimp only at he
    exact dispatchExternal_effects s 0 ssd.downloads permits e he

/-- Dispatch never wipes persisted parts. -/
theorem request_shard_no_clear (s : ShardId) (hash : CryptoHash)
    (ssd : ShardSyncDownload) (peers : List PeerId) (inner : StateSyncInner)
    (ctx : ChainCtx) (timeout now : Timestamp) (hd : Nat) (so : Nat → Nat)
    (s2 : ShardId) (h2 : CryptoHash) (n : Nat) :
    Effect.clearParts s2 h2 n
      ∉ (request_shard s hash ssd peers inner ctx timeout now hd so).2.2.1 := by
  intro he
  unfold request_shard at he
  dsimp only at he
  by_cases hemp : (select_peers peers s inner now).1.isEmpty
  · rw [if_pos hemp] at he
    simp at he
  · rw [if_neg hemp] at he
    cases hst : ssd.status with
    | StateDownloadHeader =>
      rw [hst] at he
      dsimp only at he
      rcases request_shard_header_effects s hash _ ssd hd _ he with ⟨p, hp⟩
      cases hp
    | StateDownloadParts =>
      rw [hst] at he
      dsimp only at he
      cases hsel : (select_peers peers s inner now).2 with
      | peers st =>
        rw [hsel] at he
        dsimp only at he
        rcases request_shard_parts_peers_effects s hash _ ssd st timeout now so _ he
          with ⟨i, p, hp⟩
        cases hp
      | partsFromExternal cid permits =>
        rw [hsel] at he
        dsimp only at he
        rcases request_shard_parts_external_effects s ssd permits ctx _ he with ⟨i, hp⟩
        cases hp
    | StateDownloadScheduling => rw [hst] at he; simp at he
    | StateDownloadApplying => rw [hst] at he; simp at he
    | StateDownloadComplete => rw [hst] at he; simp at he
    | StateSplitScheduling => rw [hst] at he; simp at he
    | StateSplitApplying => rw [hst] at he; simp at he
    | StateSyncDone => rw [hst] at he; simp at he

/-- Response ingestion only persists; it never wipes parts. -/
theorem update_download_no_clear (ssd : ShardSyncDownload) (hash : CryptoHash)
    (s : ShardId) (resp : ShardStateSyncResponse) (ctx : ChainCtx)
    (inner : StateSyncInner) (s2 : ShardId) (h2 : CryptoHash) (n : Nat) :
    Effect.clearParts s2 h2 n
      ∉ (update_download_on_state_response_message ssd hash s resp ctx inner).2.2 := by
  intro he
  unfold update_download_on_state_response_message at he
  cases hst : ssd.status <;> rw [hst] at he <;> dsimp only at he
  case StateDownloadHeader =>
    cases hds : ssd.downloads with
    | nil => rw [hds] at he; simp at he
    | cons d rest =>
      rw [hds] at he
      dsimp only at he
      cases hh : resp.header? with
      | some u =>
        rw [hh] at he
        dsimp only at he
        by_cases hd : d.done <;> simp [hd] at he
        by_cases hok : ctx.setStateHeaderOk s <;> simp [hok] at he
      | none =>
        rw [hh] at he
        dsimp only at he
        by_cases hd : d.done <;> simp [hd] at he
  case StateDownloadParts =>
    cases hp2 : resp.part? with
    | none => rw [hp2] at he; simp at he
    | some pr =>
      rw [hp2] at he
      dsimp only at he
      by_cases hge : pr.1 ≥ ssd.downloads.length
      · rw [if_pos hge] at he
        simp at he
      · rw [if_neg hge] at he
        cases hgd : ssd.downloads.get? pr.1 with
        | none => rw [hgd] at he; simp at he
        | some d =>
          rw [hgd] at he
          dsimp only at he
          by_cases hd : d.done <;> simp [hd] at he
          by_cases hok : ctx.setStatePartOk s pr.1 <;> simp [hok] at he
  all_goals simp at he

/-! ## The claims -/

/-- C1 (refuted as stated): in `Peers` mode a reachable state holds 17
outstanding, unexpired part requests to peer 2 for shard 1 — the LRU key
`(part_id, sync_hash)` lacks the shard id, so a response for another shard's
equally-numbered part releases the wrong ledger entry and `select_peers`
re-admits the peer while 16 of its requests are still unanswered. -/
theorem C1_counterexample :
    PReach 100 0 c1S4 ∧ MAX_STATE_PART_REQUEST < outstandingCount c1S4 2 1 50 :=
  ⟨c1_reach, by decide⟩

/-- C1 (amended): what the code does enforce is the ledger's own accounting —
in every reachable `Peers` state the pending ledger's keys are pairwise
distinct and every `(peer, shard)` cell records at most
`MAX_STATE_PART_REQUEST` missing parts. -/
theorem C1_amended (timeout : Timestamp) (hash : CryptoHash) (st : PState)
    (h : PReach timeout hash st) :
    ledgerKeysNodup st.ps.last_part_id_requested ∧
    ∀ p s, ledgerMissing st.ps.last_part_id_requested p s ≤ MAX_STATE_PART_REQUEST :=
  preach_ledger_inv timeout hash st h

/-- C1 amended, instantiated at the final state of the counterexample trace. -/
theorem C1_amended_witness :
    ledgerKeysNodup c1S4.ps.last_part_id_requested ∧
    ∀ p s, ledgerMissing c1S4.ps.last_part_id_requested p s ≤ MAX_STATE_PART_REQUEST :=
  C1_amended 100 0 c1S4 c1_reach

/-- C2: the bounded sampler built over `data` with per-element limit `K`
yields exactly `|data| * K` items in total before terminating, contains each
value `K` times its multiplicity in `data`, and yields nothing for `K = 0`. -/
theorem C2_sampler_yield (data : List PeerId) (K : Nat) (o : Nat → Nat)
    (k : Nat) (v : PeerId) :
    ((SamplerLimited.new data K).run o k).length = data.length * K ∧
    ((SamplerLimited.new data K).run o k).count v = K * data.count v ∧
    (SamplerLimited.new data 0).run o k = [] := by
  refine ⟨sampler_new_run_length data K o k, sampler_new_run_count data K o k v, ?_⟩
  have h := sampler_new_run_length data 0 o k
  rw [Nat.mul_zero] at h
  exact List.length_eq_zero.mp h

/-- C3: a non-aborting `run` returns `completed` exactly when the sync block
is locally present and every tracked shard's record ends in `StateSyncDone`;
with an empty tracking set the result is `completed` when the block is
present, otherwise `requestBlock` when a (re-)request is due and `inProgress`
when not. -/
theorem C3_run_completed (ctx : ChainCtx) (hash : CryptoHash) (map : SyncMap)
    (ss : SSState) (peers : List PeerId) (tracking : List ShardId)
    (msgs : List StateSyncGetPartResult) (now : Timestamp)
    (oracle : Nat → Nat → Nat) (res : StateSyncResult) (map' : SyncMap)
    (ss' : SSState) (effs : List Effect) (hnd : tracking.Nodup)
    (hrun : run ctx hash map ss peers tracking msgs now oracle
      = (.ok res, map', ss', effs)) :
    (res = .completed ↔ (ctx.haveBlock = true ∧ ∀ s ∈ tracking,
      (mapGet map' s).map ShardSyncDownload.status = some .StateSyncDone)) ∧
    (tracking = [] →
      res = (if ctx.haveBlock then .completed
        else if (sync_block_status ctx.haveBlock ss.last_time_block_requested
            ss.timeout now).1 then .requestBlock else .inProgress)) := by
  refine ⟨run_completed_iff ctx hash map ss peers tracking msgs now oracle
    res map' ss' effs hnd hrun, ?_⟩
  intro htr
  subst htr
  rw [run_empty_tracking] at hrun
  have h1 := congrArg Prod.fst hrun
  dsimp only at h1
  by_cases hb : ctx.haveBlock = true
  · rw [if_pos hb] at h1
    rw [if_pos hb]
    cases h1
    rfl
  · rw [if_neg hb] at h1
    rw [if_neg hb]
    by_cases hr : (sync_block_status ctx.haveBlock ss.last_time_block_requested
        ss.timeout now).1 = true
    · rw [if_pos hr] at h1
      rw [if_pos hr]
      cases h1
      rfl
    · rw [if_neg hr] at h1
      rw [if_neg hr]
      cases h1
      rfl

/-- C3, instantiated: an empty tracking set with the sync block present
returns `completed` without touching the state. -/
theorem C3_run_completed_witness :
    ((StateSyncResult.completed = .completed) ↔ (okCtx.haveBlock = true ∧
      ∀ s ∈ ([] : List ShardId),
        (mapGet ([] : SyncMap) s).map ShardSyncDownload.status
          = some .StateSyncDone)) ∧
    (([] : List ShardId) = [] →
      StateSyncResult.completed = (if okCtx.haveBlock then .completed
        else if (sync_block_status okCtx.haveBlock emptySS.last_time_block_requested
            emptySS.timeout 0).1 then .requestBlock else .inProgress)) :=
  C3_run_completed okCtx 0 [] emptySS [] [] [] 0 (fun _ _ => 0) .completed []
    emptySS [] (by decide) (by rfl)

/-- C4 (refuted as stated): a storage failure followed by a success for the
same part slot within one tick leaves, at the end of the tick, a
`DownloadStatus` with `done`, `error` and `run_me` all `true` — an `Ok`
result sets `done` without clearing `error`, and neither `process_part_response`
nor the per-tick status check touches `run_me` on a done part. -/
theorem C4_counterexample :
    ((mapGet (run okCtx 0 c4Map emptySS [] [0] c4Msgs 0 (fun _ _ => 0)).2.1 0).bind
        (fun ssd => ssd.downloads.get? 0)).map
      (fun d => (d.done, d.error, d.run_me)) = some (true, true, true) := by
  decide

/-- C4 (amended): the flag discipline is preserved by the per-tick retry
check unconditionally, and by response processing only for a part that is
in flight — not done, not errored and disarmed; the `Err`-then-`Ok` sequence
of the counterexample falls outside that precondition. -/
theorem C4_amended (timeout now : Timestamp) (i s h : Nat)
    (res : Except String Nat) (d : DownloadStatus) (hinv : DownloadInv d) :
    DownloadInv (part_status_update timeout now d) ∧
    (d.done = false → d.error = false → d.run_me = false →
      DownloadInv (process_part_response i s h d res)) := by
  obtain ⟨hde, hrd⟩ := hinv
  constructor
  · unfold part_status_update
    cases hd : d.done with
    | true =>
      simp only [hd, Bool.not_true, Bool.false_eq_true, if_false]
      exact ⟨hde, hrd⟩
    | false =>
      simp only [hd, Bool.not_false, if_true]
      by_cases h1 : (decide (now - d.prev_update_time > timeout) || d.error) = true
      · rw [if_pos h1]
        by_cases h2 : (decide (now - d.prev_update_time > timeout)
            || d.last_target.isSome) = true
        · rw [if_pos h2]
          exact ⟨fun _ => rfl, fun _ => rfl⟩
        · rw [if_neg h2]
          exact ⟨hde, hrd⟩
      · rw [if_neg h1]
        exact ⟨hde, hrd⟩
  · intro hdone herr hrun
    unfold process_part_response
    cases res with
    | ok v =>
      refine ⟨fun _ => herr, fun hr => ?_⟩
      rw [show ({ d with done := true } : DownloadStatus).run_me = d.run_me from rfl,
        hrun] at hr
      cases hr
    | error e =>
      refine ⟨fun hdn => ?_, fun _ => hdone⟩
      rw [show ({ d with error := true } : DownloadStatus).done = d.done from rfl,
        hdone] at hdn
      cases hdn

/-- C4 amended, instantiated at a fresh artifact record. -/
theorem C4_amended_witness :
    DownloadInv (part_status_update 10 0 (DownloadStatus.new 0)) ∧
    ((DownloadStatus.new 0).done = false → (DownloadStatus.new 0).error = false →
      (DownloadStatus.new 0).run_me = false →
      DownloadInv (process_part_response 0 0 0 (DownloadStatus.new 0) (.ok 0))) :=
  C4_amended 10 0 0 0 0 (.ok 0) (DownloadStatus.new 0) (by constructor <;> decide)

/-- C5 (refuted as stated): a part response with `part_id >= num_parts` is
dropped only after `received_requested_part` has already run — here it
releases the pending ledger entry of peer 2 for shard 3, so the
`StateSync`-owned state does change. -/
theorem C5_counterexample :
    (update_download_on_state_response_message c5Ssd 0 3 c5Resp okCtx c5Inner).2.1
      ≠ c5Inner ∧
    (update_download_on_state_response_message c5Ssd 0 3 c5Resp okCtx c5Inner).1
      = c5Ssd ∧
    (update_download_on_state_response_message c5Ssd 0 3 c5Resp okCtx c5Inner).2.2
      = [] := by
  refine ⟨?_, rfl, rfl⟩
  decide

/-- C5 (amended): an out-of-range part response leaves the shard record
untouched and persists nothing; the one state change is the unconditional
`received_requested_part` bookkeeping that precedes the range check. -/
theorem C5_amended (ssd : ShardSyncDownload) (hash : CryptoHash) (s : ShardId)
    (resp : ShardStateSyncResponse) (ctx : ChainCtx) (inner : StateSyncInner)
    (pid : Nat) (data : Unit) (hpid : resp.part? = some (pid, data))
    (hst : ssd.status = .StateDownloadParts)
    (hge : pid ≥ ssd.downloads.length) :
    update_download_on_state_response_message ssd hash s resp ctx inner
      = (ssd, received_requested_part pid s hash inner, []) := by
  unfold update_download_on_state_response_message
  have hpi : resp.part_id = some pid := by
    rw [ShardStateSyncResponse.part_id, hpid]
    rfl
  rw [hpi, hst, hpid]
  dsimp only
  rw [if_pos hge]

/-- C5 amended, instantiated at the counterexample's inputs. -/
theorem C5_amended_witness :
    update_download_on_state_response_message c5Ssd 0 3 c5Resp okCtx c5Inner
      = (c5Ssd, received_requested_part 5 3 0 c5Inner, []) :=
  C5_amended c5Ssd 0 3 c5Resp okCtx c5Inner 5 () (by decide) (by decide) (by decide)

/-- C6: a `clearParts` wipe is emitted by the per-shard step exactly when
scheduling the apply fails in the scheduling phase or finalization fails in
the applying phase; whenever it is emitted the shard record is reset to a
fresh header phase; and neither dispatch nor response ingestion ever emits a
wipe. -/
theorem C6_destructive_recovery (ctx : ChainCtx) (hash : CryptoHash)
    (timeout now : Timestamp) (split : Bool)
    (ar sr : List (ShardId × Except Unit Unit)) (s : ShardId)
    (ssd : ShardSyncDownload) (peers : List PeerId) (inner : StateSyncInner)
    (resp : ShardStateSyncResponse) (hd : Nat) (so : Nat → Nat)
    (s2 : ShardId) (h2 : CryptoHash) (n : Nat) :
    (Effect.clearParts s2 h2 n
        ∈ (stepShardStatus ctx hash timeout now split ar sr s ssd).effects ↔
      (s2 = s ∧ h2 = hash ∧ ctx.getStateHeader s = .ok n ∧
        ((ssd.status = .StateDownloadScheduling ∧ ctx.scheduleApplyOk s = false) ∨
         (ssd.status = .StateDownloadApplying ∧ ∃ r rest,
           assocRemove ar s = some (r, rest) ∧
           ctx.setStateFinalizeOk s r = false)))) ∧
    (Effect.clearParts s2 h2 n
        ∈ (stepShardStatus ctx hash timeout now split ar sr s ssd).effects →
      (stepShardStatus ctx hash timeout now split ar sr s ssd).ssd
        = ShardSyncDownload.new_download_state_header now) ∧
    Effect.clearParts s2 h2 n
      ∉ (request_shard s hash ssd peers inner ctx timeout now hd so).2.2.1 ∧
    Effect.clearParts s2 h2 n
      ∉ (update_download_on_state_response_message ssd hash s resp ctx inner).2.2 := by
  refine ⟨?_, ?_, request_shard_no_clear s hash ssd peers inner ctx timeout now hd so
    s2 h2 n, update_download_no_clear ssd hash s resp ctx inner s2 h2 n⟩
  · unfold stepShardStatus
    cases hst : ssd.status <;> dsimp only
    case StateDownloadScheduling =>
      unfold sync_shards_download_scheduling_status
      cases hg : ctx.getStateHeader s <;> dsimp only
      next u => simp [hg]
      next m =>
        by_cases hap : ctx.scheduleApplyOk s
        · rw [if_pos hap]
          simp [hg, hap]
        · rw [if_neg hap]
          simp only [List.mem_cons, List.not_mem_nil, or_false, hg,
            Effect.clearParts.injEq, Except.ok.injEq]
          constructor
          · rintro ⟨rfl, rfl, rfl⟩
            exact ⟨rfl, rfl, rfl, Or.inl ⟨trivial, by simpa using hap⟩⟩
          · rintro ⟨rfl, rfl, hmn, -⟩
            exact ⟨rfl, rfl, hmn.symm⟩
    case StateDownloadApplying =>
      unfold sync_shards_download_applying_status
      cases ha : assocRemove ar s <;> dsimp only
      next => simp [ha]
      next pr =>
        by_cases hfin : ctx.setStateFinalizeOk s pr.1
        · rw [if_pos hfin]
          simp only [List.not_mem_nil, false_iff, ha]
          rintro ⟨-, -, -, ⟨h1, -⟩ | ⟨-, r, rest, hpr, hf⟩⟩
          · cases h1
          · rcases Option.some.inj hpr with rfl
            rw [hfin] at hf
            cases hf
        · rw [if_neg hfin]
          cases hg : ctx.getStateHeader s <;> dsimp only
          next u => simp [hg]
          next m =>
            simp only [List.mem_cons, List.not_mem_nil, or_false, hg,
              Effect.clearParts.injEq, Except.ok.injEq, ha]
            constructor
            · rintro ⟨rfl, rfl, rfl⟩
              exact ⟨rfl, rfl, rfl, Or.inr ⟨trivial, pr.1, pr.2, rfl,
                by simpa using hfin⟩⟩
            · rintro ⟨rfl, rfl, hmn, -⟩
              exact ⟨rfl, rfl, hmn.symm⟩
    case StateDownloadHeader => simp
    case StateDownloadParts => simp
    case StateDownloadComplete => simp
    case StateSplitScheduling =>
      unfold sync_shards_state_split_scheduling_status
      by_cases hpre : ctx.splitPreOk s
      · rw [if_pos hpre]
        simp
      · rw [if_neg hpre]
        simp
    case StateSplitApplying => simp
    case StateSyncDone => simp
  · intro hmem
    unfold stepShardStatus at hmem ⊢
    cases hst : ssd.status <;> rw [hst] at hmem <;> dsimp only at hmem ⊢
    case StateDownloadScheduling =>
      unfold sync_shards_download_scheduling_status at hmem ⊢
      cases hg : ctx.getStateHeader s <;> rw [hg] at hmem <;> dsimp only at hmem ⊢
      next u => simp at hmem
      next m =>
        by_cases hap : ctx.scheduleApplyOk s
        · rw [if_pos hap] at hmem
          simp at hmem
        · rw [if_neg hap] at hmem ⊢
    case StateDownloadApplying =>
      unfold sync_shards_download_applying_status at hmem ⊢
      cases ha : assocRemove ar s <;> rw [ha] at hmem <;> dsimp only at hmem ⊢
      next => simp at hmem
      next pr =>
        by_cases hfin : ctx.setStateFinalizeOk s pr.1
        · rw [if_pos hfin] at hmem
          simp at hmem
        · rw [if_neg hfin] at hmem ⊢
          cases hg : ctx.getStateHeader s <;> rw [hg] at hmem <;>
            dsimp only at hmem ⊢
    case StateDownloadHeader => simp at hmem
    case StateDownloadParts => simp at hmem
    case StateDownloadComplete => simp at hmem
    case StateSplitScheduling =>
      unfold sync_shards_state_split_scheduling_status at hmem
      by_cases hpre : ctx.splitPreOk s
      · rw [if_pos hpre] at hmem
        simp at hmem
      · rw [if_neg hpre] at hmem
        simp at hmem
    case StateSplitApplying => simp at hmem
    case StateSyncDone => simp at hmem

/-- C7: an errored, not-yet-done part is re-armed (armed, error cleared,
timestamp reset) exactly when its request timed out or a `last_target` is
recorded; an external-storage failure (no `last_target`) inside the timeout
window is left untouched. -/
theorem C7_error_retry_policy (timeout now : Timestamp) (d : DownloadStatus)
    (hdone : d.done = false) (herr : d.error = true) :
    part_status_update timeout now d =
      (if decide (now - d.prev_update_time > timeout) || d.last_target.isSome then
        { d with run_me := true, error := false, prev_update_time := now }
      else d) := by
  unfold part_status_update
  rw [hdone, herr]
  dsimp only
  rw [if_pos (show (!false) = true from rfl)]
  rw [if_pos (Bool.or_true _)]

/-- An errored external-storage part: no target recorded, failed once. -/
def c7D : DownloadStatus :=
  { run_me := false, done := false, error := true, state_requests_count := 1,
    last_target := none, start_time := 0, prev_update_time := 0 }

/-- C7, instantiated: a fresh external failure (no target, within the
timeout) stays frozen. -/
theorem C7_error_retry_policy_witness :
    part_status_update 10 0 c7D =
      (if decide ((0 : Int) - 0 > 10) || c7D.last_target.isSome then
        { c7D with run_me := true, error := false, prev_update_time := 0 }
      else c7D) :=
  C7_error_retry_policy 10 0 c7D rfl rfl

/-- C8 (refuted as stated): with an empty tracking set the layout mismatch is
never checked and `run` returns successfully; and a per-shard split-apply
error aborts the aggregate step even though the layouts match. -/
theorem C8_counterexample :
    (run c8Ctx 0 [] emptySS [] [] [] 0 (fun _ _ => 0)).1 = .ok .completed ∧
    (run okCtx 0 c8Map c8SS [] [7] [] 0 (fun _ _ => 0)).1 = .error .chainError := by
  exact ⟨rfl, rfl⟩

/-- C8 (amended): with a non-empty tracking set, a layout mismatch makes
`run` abort with the sharding-upgrade panic before advancing any shard:
the returned map holds only the ingested responses, the state only the
updated block-request clock, and no effect is emitted. -/
theorem C8_amended (ctx : ChainCtx) (hash : CryptoHash) (map : SyncMap)
    (ss : SSState) (peers : List PeerId) (tracking : List ShardId)
    (msgs : List StateSyncGetPartResult) (now : Timestamp)
    (oracle : Nat → Nat → Nat) (hne : tracking ≠ [])
    (hlay : ctx.prevLayout ≠ ctx.syncLayout) :
    run ctx hash map ss peers tracking msgs now oracle
      = (.error (.panic "cannot sync to the first epoch after sharding upgrade. Please wait for the next epoch or find peers that are more up to date"),
         process_downloaded_parts hash msgs map,
         { ss with last_time_block_requested :=
             (sync_block_status ctx.haveBlock ss.last_time_block_requested
               ss.timeout now).2.2 },
         []) :=
  run_panic_eq ctx hash map ss peers tracking msgs now oracle hne hlay

/-- C8 amended, instantiated at a mismatched-layout context with one tracked
shard. -/
theorem C8_amended_witness :
    run c8Ctx 0 [] emptySS [] [3] [] 0 (fun _ _ => 0)
      = (.error (.panic "cannot sync to the first epoch after sharding upgrade. Please wait for the next epoch or find peers that are more up to date"),
         process_downloaded_parts 0 [] [],
         { emptySS with last_time_block_requested :=
             (sync_block_status c8Ctx.haveBlock emptySS.last_time_block_requested
               emptySS.timeout 0).2.2 },
         []) :=
  C8_amended c8Ctx 0 [] emptySS [] [3] [] 0 (fun _ _ => 0) (by decide) (by decide)

/-- C9 (refuted as stated): with no known peers `request_shard` does send
nothing and leaves the shard record alone, but in `Peers` mode it still
mutates the owned state — `select_peers` sweeps the expired ledger entry of
peer 2 before the empty-candidates return. -/
theorem C9_counterexample :
    (request_shard 3 0 c9Ssd [] c9Inner okCtx 100 20 0 (fun _ => 0)).2.1
      ≠ c9Inner ∧
    (request_shard 3 0 c9Ssd [] c9Inner okCtx 100 20 0 (fun _ => 0)).1 = c9Ssd ∧
    (request_shard 3 0 c9Ssd [] c9Inner okCtx 100 20 0 (fun _ => 0)).2.2.1
      = [] := by
  refine ⟨?_, rfl, rfl⟩
  decide

/-- C9 (amended): with no known peers `request_shard` issues no request and
returns the record unchanged with no error; the only state change is the
`select_peers` ledger sweep, and in external-storage mode — where the sweep
is a no-op — truly nothing changes, so external part fetches also wait for a
tick with at least one peer. -/
theorem C9_amended (s : ShardId) (hash : CryptoHash) (ssd : ShardSyncDownload)
    (inner : StateSyncInner) (ctx : ChainCtx) (timeout now : Timestamp)
    (hd : Nat) (so : Nat → Nat) :
    request_shard s hash ssd [] inner ctx timeout now hd so
      = (ssd, (select_peers [] s inner now).2, [], none) ∧
    (∀ cid permits, inner = .partsFromExternal cid permits →
      request_shard s hash ssd [] inner ctx timeout now hd so
        = (ssd, inner, [], none)) := by
  constructor
  · cases inner with
    | peers st => rfl
    | partsFromExternal cid permits => rfl
  · rintro cid permits rfl
    rfl

/-- C10: after recording part `p` for shard `s1` at peer `x` and then part
`p` for shard `s2` at peer `y`, the LRU resolves `(p, sync_hash)` to `y`;
peer `x` still owes a pending ledger entry for `s1`, and a response for
`(p, s1)` leaves that entry untouched — it debits `(y, s1)` instead. -/
theorem C10_lru_shard_collision (x y : PeerId) (s1 s2 : ShardId) (p : Nat)
    (hash : CryptoHash) (st : PeersState) (timeout now : Timestamp)
    (hcap : 1 ≤ st.requested_target.cap) (hxy : x ≠ y) :
    (((sent_request_part y p s2 hash (sent_request_part x p s1 hash st timeout
        now) timeout now).requested_target.get (p, hash)).1 = some y) ∧
    (ledgerGet (sent_request_part x p s1 hash st timeout
        now).last_part_id_requested (x, s1)).isSome = true ∧
    ledgerGet (sent_request_part y p s2 hash (sent_request_part x p s1 hash st
        timeout now) timeout now).last_part_id_requested (x, s1)
      = ledgerGet (sent_request_part x p s1 hash st timeout
          now).last_part_id_requested (x, s1) ∧
    ledgerGet (received_requested_part_peers p s1 hash (sent_request_part y p
        s2 hash (sent_request_part x p s1 hash st timeout now) timeout
        now)).last_part_id_requested (x, s1)
      = ledgerGet (sent_request_part y p s2 hash (sent_request_part x p s1
          hash st timeout now) timeout now).last_part_id_requested (x, s1) := by
  have hne : (x, s1) ≠ (y, s2) := by
    intro h
    injection h with h1 h2
    exact hxy h1
  have hne2 : ((x : PeerId), s1) ≠ (y, s1) := by
    intro h
    injection h with h1 h2
    exact hxy h1
  have hget : ((sent_request_part y p s2 hash (sent_request_part x p s1 hash
      st timeout now) timeout now).requested_target.get (p, hash)).1 = some y := by
    rw [sent_request_part_lru]
    refine lruGet_put_fst _ _ _ ?_
    rw [sent_request_part_lru, lru_put_cap]
    exact hcap
  refine ⟨hget, sent_ledger_self_isSome x p s1 hash st timeout now,
    sent_ledger_other y p s2 hash _ timeout now x s1 hne, ?_⟩
  exact received_ledger_untouched p s1 hash _ x s1 y hget hne2

/-- C10, instantiated: peers 1 and 2, shards 1 and 2, part 0, on the fresh
`Peers` state. -/
theorem C10_lru_shard_collision_witness :
    (((sent_request_part 2 0 2 0 (sent_request_part 1 0 1 0 initPState.ps 100
        0) 100 0).requested_target.get (0, 0)).1 = some 2) ∧
    (ledgerGet (sent_request_part 1 0 1 0 initPState.ps 100
        0).last_part_id_requested (1, 1)).isSome = true ∧
    ledgerGet (sent_request_part 2 0 2 0 (sent_request_part 1 0 1 0
        initPState.ps 100 0) 100 0).last_part_id_requested (1, 1)
      = ledgerGet (sent_request_part 1 0 1 0 initPState.ps 100
          0).last_part_id_requested (1, 1) ∧
    ledgerGet (received_requested_part_peers 0 1 0 (sent_request_part 2 0 2 0
        (sent_request_part 1 0 1 0 initPState.ps 100 0) 100
        0)).last_part_id_requested (1, 1)
      = ledgerGet (sent_request_part 2 0 2 0 (sent_request_part 1 0 1 0
          initPState.ps 100 0) 100 0).last_part_id_requested (1, 1) :=
  C10_lru_shard_collision 1 2 1 2 0 0 initPState.ps 100 0 (by decide) (by decide)

end StateSyncModel
